import Mathlib

/-!
Verification of the stack-generator program `setup_stack.py`.

The program is a code generator: it writes a fixed tree of text files
(dedented multi-line templates), marks some of them executable, zips the
tree, and logs every action to two append-only log files.

The embedding below models:

* the text transformation performed by `safe_write` — Python
  `textwrap.dedent(content).lstrip("\n")` — at the level of `List Char`
  (`splitLines`, `blankToEmpty`, `margin`, `stripMargin`, `transform`);
* the effectful operations (`log_info`, `log_error`, `safe_write`,
  `make_executable`, `create_zip`, `create_stack_files`, `main`) as explicit
  state-passing functions over a state `Gen` (files, directories, permission
  bits, archives, log records, console streams), with an environment `World`
  providing the wall clock, the textual form of the root directory, and
  failure oracles for the fallible primitives; Python exceptions are
  modelled by the `Res` result type.

The 13 template bodies (about 700 lines of literal shell/YAML/Markdown text
that the program passes to `safe_write` unchanged, fixed at build time) are
abstracted as a parameter `body : Nat → String` giving the body of the i-th
catalog entry; every property proved about the generator holds for all
choices of the bodies, hence in particular for the literal templates of the
source.
-/

namespace SetupStack

/-- A line of text: the characters of one line, containing no newline. -/
abbrev Line := List Char

/-- Whitespace as `textwrap.dedent` sees it: space or tab. -/
def isWS (c : Char) : Bool := c == ' ' || c == '\t'

/-- Split a character sequence at newline characters, mirroring Python
`text.split("\n")`: `n` newline characters yield `n + 1` (possibly empty)
lines. -/
def splitLines : List Char → List Line
  | [] => [[]]
  | c :: cs =>
    if c = '\n' then [] :: splitLines cs
    else
      match splitLines cs with
      | [] => [[c]]
      | l :: ls => (c :: l) :: ls

/-- Join lines with newline separators, mirroring `"\n".join(lines)`. -/
def joinLines : List Line → List Char
  | [] => []
  | [l] => l
  | l :: l' :: ls => l ++ '\n' :: joinLines (l' :: ls)

/-- First step of `textwrap.dedent`: a line consisting solely of whitespace
is normalized to an empty line (`_whitespace_only_re.sub("", text)`). -/
def blankToEmpty (l : Line) : Line := if l.all isWS then [] else l

/-- The leading whitespace of a line (the group captured by dedent's
`_leading_whitespace_re`). -/
def leadingWS (l : Line) : Line := l.takeWhile isWS

/-- Boolean list-prefix test (used to model Python's anchored
`re.sub("^" + margin, ...)` and startswith-style comparisons). -/
def pfx {α : Type} [DecidableEq α] : List α → List α → Bool
  | [], _ => true
  | _ :: _, [] => false
  | a :: as, b :: bs => decide (a = b) && pfx as bs

/-- Longest common prefix of two lines: one iteration of `textwrap.dedent`'s
margin-narrowing loop (keep the winner while it is a prefix, otherwise cut
at the first mismatch). -/
def lcp : Line → Line → Line
  | a :: as, b :: bs => if a = b then a :: lcp as bs else []
  | _, _ => []

/-- Fold of `lcp` over a list of indents, starting from the first indent:
`textwrap.dedent`'s whole margin loop. -/
def lcpFold (i : Line) (is : List Line) : Line := is.foldl lcp i

/-- `textwrap.dedent`'s margin: the fold of `lcp` over the indents of the
lines that still have content after whitespace-only lines were blanked
(empty lines contribute no indent, exactly as dedent's regex skips them). -/
def margin (ls : List Line) : Line :=
  match (ls.filter (fun l => !l.isEmpty)).map leadingWS with
  | [] => []
  | i :: is => lcpFold i is

/-- Strip `m` from the front of a line when `m` is a prefix of it; the
per-line effect of `re.sub(r"(?m)^" + margin, "", text)`. -/
def stripMargin (m : Line) (l : Line) : Line :=
  if pfx m l then l.drop m.length else l

/-- The line-level effect of `textwrap.dedent`: blank the whitespace-only
lines, then strip the common margin from every line. -/
def dedentLines (ls : List Line) : List Line :=
  let bs := ls.map blankToEmpty
  bs.map (stripMargin (margin bs))

/-- Python `textwrap.dedent` on a character sequence. -/
def dedentChars (cs : List Char) : List Char :=
  joinLines (dedentLines (splitLines cs))

/-- Python `str.lstrip("\n")`: drop leading newline characters. -/
def lstripNL (cs : List Char) : List Char := cs.dropWhile (· = '\n')

/-- The text transformation applied by `safe_write`:
`textwrap.dedent(content).lstrip("\n")`. -/
def transformChars (cs : List Char) : List Char := lstripNL (dedentChars cs)

/-- `safe_write`'s text transformation at the `String` level. -/
def transform (s : String) : String := ⟨transformChars s.data⟩

/-- A blank line in the sense of the specification: a line with no
non-whitespace character. -/
def isBlank (l : Line) : Bool := l.all isWS

/-- Stated from the claim wording of C1 (for refinement comparison): the
longest whitespace prefix common to all non-blank lines. -/
def claimMargin (ls : List Line) : Line :=
  match (ls.filter (fun l => !(isBlank l))).map leadingWS with
  | [] => []
  | i :: is => lcpFold i is

/-- Stated from the claim wording of C1 (for refinement comparison): remove
the longest whitespace prefix common to all non-blank lines from every line
(where it occurs), then strip leading blank lines, preserving all remaining
text exactly. -/
def claimTransform (s : String) : String :=
  let ls := splitLines s.data
  ⟨joinLines ((ls.map (stripMargin (claimMargin ls))).dropWhile isBlank)⟩

/-- The amended C1 transformation: as `claimTransform`, but lines consisting
solely of whitespace are first normalized to empty lines — which is what
`textwrap.dedent` documents and does. -/
def amendedTransform (s : String) : String :=
  let ns := (splitLines s.data).map blankToEmpty
  ⟨joinLines ((ns.map (stripMargin (claimMargin ns))).dropWhile isBlank)⟩

/-- A filesystem path, given by its components relative to `ROOT_DIR` (the
directory containing the generator script,
`ROOT_DIR = Path(__file__).resolve().parent`). -/
abbrev FPath := List String

/-- Result of a Python-level operation: normal return, or a raised exception
carrying the text `str(exc)`. -/
inductive Res (α : Type) where
  | ok : α → Res α
  | exn : String → Res α
deriving DecidableEq

/-- A wall-clock reading, as the fields `strftime` formats. -/
structure DateTime where
  year : Nat
  month : Nat
  day : Nat
  hour : Nat
  minute : Nat
  second : Nat
deriving DecidableEq

/-- The environment of a run: the wall clock (one reading per `timestamp_utc`
call), the textual form of `ROOT_DIR`, the `st_mode` bits a freshly written
file has (umask-dependent), the failure oracles of the fallible primitives
(`none`: the operation succeeds; `some msg`: it raises an exception whose
`str` is `msg`), and the text `traceback.format_exc()` yields for an
exception. -/
structure World where
  clock : Nat → DateTime
  rootStr : String
  defaultMode : Nat
  writeFails : FPath → Option String
  chmodFails : FPath → Option String
  zipFails : Option String
  tbOf : String → String

/-- The mutable state of a run: the files on disk under `ROOT_DIR` (path ↦
text content), the existing directories, the permission bits set explicitly,
the zip archives written (path ↦ entry list), the records appended to the
two logs (one string per `_append_log` call), the console streams, and the
number of clock readings made so far. -/
structure Gen where
  files : List (FPath × String)
  dirs : List FPath
  modes : List (FPath × Nat)
  zips : List (FPath × List (FPath × String))
  actionsRecs : List String
  errorRecs : List String
  out : List String
  errOut : List String
  tick : Nat
deriving DecidableEq

/-- Association-list lookup for path-keyed maps. -/
def lookupA {β : Type} : List (FPath × β) → FPath → Option β
  | [], _ => none
  | e :: es, p => if e.1 = p then some e.2 else lookupA es p

/-- Association-list update: replace in place, or append a new binding. -/
def setA {β : Type} : List (FPath × β) → FPath → β → List (FPath × β)
  | [], p, v => [(p, v)]
  | e :: es, p, v => if e.1 = p then (p, v) :: es else e :: setA es p v

/-- `VERSION = "0.1.6"`. -/
def VERSION : String := "0.1.6"

/-- `STACK_DIR_NAME = "modular_cpu_ai_stack_v0_1_6"`. -/
def STACK_DIR_NAME : String := "modular_cpu_ai_stack_v0_1_6"

/-- `ACTIONS_LOG = ROOT_DIR / "create_stack_actions.log"`. -/
def ACTIONS_LOG : FPath := ["create_stack_actions.log"]

/-- `ERRORS_LOG = ROOT_DIR / "create_stack_errors.log"`. -/
def ERRORS_LOG : FPath := ["create_stack_errors.log"]

/-- The generator script itself, `setup_stack.py`, which lives directly in
`ROOT_DIR`. -/
def SCRIPT_PATH : FPath := ["setup_stack.py"]

/-- The textual form `str(ROOT_DIR / p)` of a path (pathlib joins components
with `/`). -/
def pathStr (w : World) (p : FPath) : String :=
  w.rootStr ++ p.foldl (fun acc c => acc ++ "/" ++ c) ""

/-- Zero padding to two digits, as `strftime`'s numeric directives pad. -/
def pad2 (n : Nat) : String := if n < 10 then "0" ++ toString n else toString n

/-- `timestamp_utc()`:
`datetime.datetime.now(datetime.timezone.utc).strftime("%Y-%m-%dT%H:%M:%SZ")`
applied to a clock reading. -/
def timestamp_utc (t : DateTime) : String :=
  toString t.year ++ "-" ++ pad2 t.month ++ "-" ++ pad2 t.day ++ "T" ++
    pad2 t.hour ++ ":" ++ pad2 t.minute ++ ":" ++ pad2 t.second ++ "Z"

/-- All nonempty prefixes of a path: the chain of directories
`mkdir(parents=True)` creates. -/
def ancestors : FPath → List FPath
  | [] => []
  | c :: cs => [c] :: (ancestors cs).map (c :: ·)

/-- Record a directory if not already present (`exist_ok=True`). -/
def addDir (ds : List FPath) (d : FPath) : List FPath :=
  if d ∈ ds then ds else ds ++ [d]

/-- The directory list after `d.mkdir(parents=True, exist_ok=True)`. -/
def mkDirs (d : FPath) (ds : List FPath) : List FPath :=
  (ancestors d).foldl addDir ds

/-- `d.mkdir(parents=True, exist_ok=True)`: create the directory and all its
ancestors. -/
def mkdirP (d : FPath) (s : Gen) : Gen :=
  { s with dirs := mkDirs d s.dirs }

/-- Current content of a file, empty if absent (append mode creates the
file). -/
def getFileD (s : Gen) (p : FPath) : String := (lookupA s.files p).getD ""

/-- `_append_log`: ensure the log's parent directory exists, then append one
line to the file. -/
def append_log (p : FPath) (line : String) (s : Gen) : Gen :=
  let s := mkdirP p.dropLast s
  { s with files := setA s.files p (getFileD s p ++ line) }

/-- The line `log_info` builds for message `msg` at clock reading `t`. -/
def infoLine (t : DateTime) (msg : String) : String :=
  timestamp_utc t ++ " [INFO] [setup_stack.py]: " ++ msg ++ "\n"

/-- The line `log_error` builds: as `infoLine` at level ERROR, plus the fixed
suffix naming the error log (`f"... (see {ERRORS_LOG} for details)"`). -/
def errorLine (w : World) (t : DateTime) (msg : String) : String :=
  timestamp_utc t ++ " [ERROR] [setup_stack.py]: " ++ msg ++ " (see " ++
    pathStr w ERRORS_LOG ++ " for details)\n"

/-- `log_info`: read the clock, append the line to the actions log, echo it
to stdout. -/
def log_info (w : World) (msg : String) (s : Gen) : Gen :=
  let line := infoLine (w.clock s.tick) msg
  let s' := append_log ACTIONS_LOG line { s with tick := s.tick + 1 }
  { s' with actionsRecs := s'.actionsRecs ++ [line], out := s'.out ++ [line] }

/-- `log_error`: read the clock, append the line to the errors log, echo it
to stderr. -/
def log_error (w : World) (msg : String) (s : Gen) : Gen :=
  let line := errorLine w (w.clock s.tick) msg
  let s' := append_log ERRORS_LOG line { s with tick := s.tick + 1 }
  { s' with errorRecs := s'.errorRecs ++ [line], errOut := s'.errOut ++ [line] }

/-- `safe_write`: create parent directories, dedent-and-strip the content,
write the file, log success; on a write failure log the error and re-raise. -/
def safe_write (w : World) (path : FPath) (content : String) (s : Gen) :
    Res Unit × Gen :=
  let s := mkdirP path.dropLast s
  match w.writeFails path with
  | none =>
    let s := { s with files := setA s.files path (transform content) }
    (.ok (), log_info w ("Wrote file: " ++ pathStr w path) s)
  | some msg =>
    (.exn msg, log_error w ("Failed to write " ++ pathStr w path ++ ": " ++ msg) s)

/-- The current `st_mode` permission bits of a file: the explicitly set
bits, else the bits a file has when created. -/
def getMode (w : World) (s : Gen) (p : FPath) : Nat :=
  (lookupA s.modes p).getD w.defaultMode

/-- `stat.S_IXUSR | stat.S_IXGRP | stat.S_IXOTH` = `0o111` = 73. -/
def execBits : Nat := 73

/-- `make_executable`: `path.chmod(path.stat().st_mode | S_IXUSR | S_IXGRP |
S_IXOTH)`, logging success, or logging and re-raising on failure. -/
def make_executable (w : World) (path : FPath) (s : Gen) : Res Unit × Gen :=
  match w.chmodFails path with
  | none =>
    let s := { s with modes := setA s.modes path (getMode w s path ||| execBits) }
    (.ok (), log_info w ("Marked executable: " ++ pathStr w path) s)
  | some msg =>
    (.exn msg, log_error w ("Failed to chmod +x " ++ pathStr w path ++ ": " ++ msg) s)

/-- The files `os.walk` yields while visiting directory `d`: the files whose
parent directory is `d`. -/
def filesWithParent (fs : List (FPath × String)) (d : FPath) :
    List (FPath × String) :=
  fs.filter (fun e => decide (e.1.dropLast = d))

/-- The directories `os.walk stack_root` visits: the root and every existing
directory strictly below it. -/
def walkDirs (s : Gen) (root : FPath) : List FPath :=
  root :: s.dirs.filter (fun d => pfx root d && decide (d ≠ root))

/-- The `(arcname, bytes)` entries `create_zip` writes: every file in every
visited directory, under `full.relative_to(ROOT_DIR)` — which is the path
itself, paths being modelled relative to `ROOT_DIR`. -/
def zipEntries (s : Gen) (root : FPath) : List (FPath × String) :=
  (walkDirs s root).flatMap (filesWithParent s.files)

/-- `create_zip`: the archive is `ROOT_DIR / f"{stack_root.name}.zip"` and
receives an entry for every file under the stack root; on failure the error
is logged and re-raised. -/
def create_zip (w : World) (stack_root : FPath) (s : Gen) : Res FPath × Gen :=
  let zip_path : FPath := [stack_root.getLastD "" ++ ".zip"]
  match w.zipFails with
  | none =>
    let s := { s with zips := setA s.zips zip_path (zipEntries s stack_root) }
    (.ok zip_path, log_info w ("Created ZIP archive: " ++ pathStr w zip_path) s)
  | some msg =>
    (.exn msg,
      log_error w ("Failed to create zip " ++ pathStr w zip_path ++ ": " ++ msg) s)

/-- Exception propagation: run the continuation only on normal return. -/
def bindR {α β : Type} : Res α × Gen → (α → Gen → Res β × Gen) → Res β × Gen
  | (.ok a, s), f => f a s
  | (.exn m, s), _ => (.exn m, s)

/-- The relative output paths of the 13 template entries written by
`create_stack_files`, in source order. -/
def relPaths : List FPath :=
  [["scripts", "common.sh"],
   ["scripts", "install_llm.sh"],
   ["scripts", "install_image_gen.sh"],
   ["scripts", "install_tts.sh"],
   ["scripts", "download_ollama_models.sh"],
   ["scripts", "health_check.sh"],
   ["scripts", "clean_stack.sh"],
   ["scripts", "setup_oauth.sh"],
   ["install.sh"],
   ["docker-compose.yml"],
   ["README.md"],
   ["CHANGELOG.md"],
   ["session_restart_prompt_v0_1_6.md"]]

/-- Sequential emission of `(path, content)` entries via `safe_write`,
stopping at the first raised exception. -/
def writeEntries (w : World) : List (FPath × String) → Gen → Res Unit × Gen
  | [], s => (.ok (), s)
  | (p, c) :: rest, s => bindR (safe_write w p c s) fun _ s' => writeEntries w rest s'

/-- `create_stack_files`: the 13 `safe_write` calls in source order; the
literal template text of the i-th entry is abstracted as `body i`. -/
def create_stack_files (w : World) (body : Nat → String) (stack_root : FPath)
    (s : Gen) : Res Unit × Gen :=
  writeEntries w (relPaths.enum.map fun e => (stack_root ++ e.2, body e.1)) s

/-- The suffix test of the glob pattern `*.sh`. -/
def endsWithSh (n : String) : Bool := pfx ['h', 's', '.'] n.data.reverse

/-- `scripts_dir.glob("*.sh")`: the files directly inside
`stack_root/scripts` whose name matches `*.sh`, in the deterministic order
of the modelled directory. -/
def shGlob (s : Gen) (stack_root : FPath) : List FPath :=
  (s.files.map (·.1)).filter
    (fun p =>
      decide (p.dropLast = stack_root ++ ["scripts"]) && endsWithSh (p.getLastD ""))

/-- The `for sh in scripts_dir.glob("*.sh"): make_executable(sh)` loop,
stopping at the first raised exception. -/
def chmodList (w : World) : List FPath → Gen → Res Unit × Gen
  | [], s => (.ok (), s)
  | p :: ps, s => bindR (make_executable w p s) fun _ s' => chmodList w ps s'

/-- `stack_root.exists()`. -/
def pathExists (s : Gen) (p : FPath) : Bool :=
  decide (p ∈ s.dirs) || (lookupA s.files p).isSome

/-- The body of `main`'s `try` block: emit the catalog, chmod the glob of
`scripts/*.sh` plus `install.sh`, create the empty `logs` directory, zip the
tree, and log/print the completion summary. -/
def mainTry (w : World) (body : Nat → String) (stack_root : FPath) (s : Gen) :
    Res Unit × Gen :=
  bindR (create_stack_files w body stack_root s) fun _ s =>
  bindR (chmodList w (shGlob s stack_root) s) fun _ s =>
  bindR (make_executable w (stack_root ++ ["install.sh"]) s) fun _ s =>
  let s := mkdirP (stack_root ++ ["logs"]) s
  bindR (create_zip w stack_root s) fun zip_path s =>
  let s := log_info w ("Stack files generation complete for " ++ VERSION ++ ".") s
  let s := log_info w ("Root directory: " ++ pathStr w stack_root) s
  let s := log_info w ("ZIP archive: " ++ pathStr w zip_path) s
  let s := { s with out := s.out ++
    ["\nDone.\nRoot: " ++ pathStr w stack_root ++ "\nZIP:  " ++
      pathStr w zip_path ++ "\n\n"] }
  (.ok (), s)

/-- `main`: the orchestrator. The step sequence and all message texts follow
the source; the `try`/`except` block is modelled by `bindR` propagation, with
the handler logging `"Unhandled exception during stack generation:\n" + tb`
and re-raising. -/
def main (w : World) (body : Nat → String) (s : Gen) : Res Unit × Gen :=
  let s := log_info w ("Generating stack version " ++ VERSION ++ " in " ++ w.rootStr) s
  let stack_root : FPath := [STACK_DIR_NAME]
  let s :=
    if pathExists s stack_root then
      log_info w ("Target directory already exists: " ++ pathStr w stack_root ++
        " (will overwrite files).") s
    else
      log_info w ("Created stack root directory: " ++ pathStr w stack_root)
        (mkdirP stack_root s)
  match mainTry w body stack_root s with
  | (.ok _, s) => (.ok (), s)
  | (.exn m, s) =>
    (.exn m,
      log_error w ("Unhandled exception during stack generation:\n" ++ w.tbOf m) s)

/-- A filesystem with nothing in it: the state of a fresh run. -/
def emptyGen : Gen :=
  { files := [], dirs := [], modes := [], zips := [], actionsRecs := [],
    errorRecs := [], out := [], errOut := [], tick := 0 }

/-- A concrete failure-free environment, used to instantiate theorems. -/
def okWorld : World :=
  { clock := fun _ => ⟨2026, 1, 2, 3, 4, 5⟩, rootStr := "/home/user",
    defaultMode := 420, writeFails := fun _ => none,
    chmodFails := fun _ => none, zipFails := none,
    tbOf := fun m => "Traceback (most recent call last):\n" ++ m }

/-- Last-writer-wins view of an entry list: the content the sequence of
writes leaves at path `q`, if any. -/
def lastWrite : List (FPath × String) → FPath → Option String
  | [], _ => none
  | (p, c) :: rest, q =>
    match lastWrite rest q with
    | some c' => some c'
    | none => if p = q then some c else none

/-- The 13 catalog entries as `main` passes them to `create_stack_files`
(stack root prepended, i-th body attached). -/
def stackEntries (body : Nat → String) : List (FPath × String) :=
  relPaths.enum.map fun e => ([STACK_DIR_NAME] ++ e.2, body e.1)


/-- The archive path `ROOT_DIR / f"{stack_root.name}.zip"` for the stack
root `main` uses. -/
def ZIP_PATH : FPath := [STACK_DIR_NAME ++ ".zip"]

/-- The content the whole catalog emission leaves at path `q` when started
from state `s`: the transformed body of the last entry targeting `q`, else
whatever `s` already stored. -/
def finalFile (body : Nat → String) (s : Gen) (q : FPath) : Option String :=
  match lastWrite (stackEntries body) q with
  | some c => some (transform c)
  | none => lookupA s.files q

/-- The predicate of the glob `scripts_dir.glob("*.sh")` on a path: directly
inside the stack root's `scripts` directory and named `*.sh`. -/
def isScriptSh (q : FPath) : Bool :=
  decide (q.dropLast = [STACK_DIR_NAME, "scripts"]) && endsWithSh (q.getLastD "")

/-- The messages `mainTry` can pass to `log_info` when started from state
`s`. -/
def tryInfoMsg (w : World) (body : Nat → String) (s : Gen) (m : String) : Prop :=
  (∃ e ∈ stackEntries body, m = "Wrote file: " ++ pathStr w e.1) ∨
  (∃ q : FPath,
    ((finalFile body s q ≠ none ∧ isScriptSh q = true) ∨
      q = [STACK_DIR_NAME, "install.sh"]) ∧
    m = "Marked executable: " ++ pathStr w q) ∨
  m = "Created ZIP archive: " ++ pathStr w ZIP_PATH ∨
  m = "Stack files generation complete for " ++ VERSION ++ "." ∨
  m = "Root directory: " ++ pathStr w [STACK_DIR_NAME] ∨
  m = "ZIP archive: " ++ pathStr w ZIP_PATH

/-- The root-relative paths of the 13 catalog entries, in source order. -/
def stackPathsList : List FPath :=
  [[STACK_DIR_NAME, "scripts", "common.sh"],
   [STACK_DIR_NAME, "scripts", "install_llm.sh"],
   [STACK_DIR_NAME, "scripts", "install_image_gen.sh"],
   [STACK_DIR_NAME, "scripts", "install_tts.sh"],
   [STACK_DIR_NAME, "scripts", "download_ollama_models.sh"],
   [STACK_DIR_NAME, "scripts", "health_check.sh"],
   [STACK_DIR_NAME, "scripts", "clean_stack.sh"],
   [STACK_DIR_NAME, "scripts", "setup_oauth.sh"],
   [STACK_DIR_NAME, "install.sh"],
   [STACK_DIR_NAME, "docker-compose.yml"],
   [STACK_DIR_NAME, "README.md"],
   [STACK_DIR_NAME, "CHANGELOG.md"],
   [STACK_DIR_NAME, "session_restart_prompt_v0_1_6.md"]]

/-- An environment in which no filesystem operation fails. -/
def NoFail (w : World) : Prop :=
  (∀ p, w.writeFails p = none) ∧ (∀ p, w.chmodFails p = none) ∧ w.zipFails = none

/-- A string that occupies exactly one line of a log file: it ends with a
newline and contains no other newline character. -/
def oneLine (r : String) : Prop :=
  r.data.count '\n' = 1 ∧ r.data.getLast? = some '\n'

instance oneLineDec (r : String) : Decidable (oneLine r) :=
  inferInstanceAs (Decidable (r.data.count '\n' = 1 ∧ r.data.getLast? = some '\n'))

/-- The state after `main`'s opening `log_info` and the conditional creation
of the stack root (the code before the `try` block). -/
def headerState (w : World) (s : Gen) : Gen :=
  if pathExists
      (log_info w ("Generating stack version " ++ VERSION ++ " in " ++ w.rootStr) s)
      [STACK_DIR_NAME] then
    log_info w ("Target directory already exists: " ++ pathStr w [STACK_DIR_NAME] ++
      " (will overwrite files).")
      (log_info w ("Generating stack version " ++ VERSION ++ " in " ++ w.rootStr) s)
  else
    log_info w ("Created stack root directory: " ++ pathStr w [STACK_DIR_NAME])
      (mkdirP [STACK_DIR_NAME]
        (log_info w ("Generating stack version " ++ VERSION ++ " in " ++ w.rootStr) s))

/-- The messages `main` passes to `log_info` before entering the `try`
block. -/
def headerMsg (w : World) (m : String) : Prop :=
  m = "Generating stack version " ++ VERSION ++ " in " ++ w.rootStr ∨
  m = "Target directory already exists: " ++ pathStr w [STACK_DIR_NAME] ++
    " (will overwrite files)." ∨
  m = "Created stack root directory: " ++ pathStr w [STACK_DIR_NAME]

/-- Monotone growth of the two log files: each file's content in `s'` extends
its content in `s`. -/
def Grows (s s' : Gen) : Prop :=
  (∃ t, getFileD s' ACTIONS_LOG = getFileD s ACTIONS_LOG ++ t) ∧
  (∃ t, getFileD s' ERRORS_LOG = getFileD s ERRORS_LOG ++ t)

/-- A concrete stand-in for the 13 template bodies, used to instantiate
theorems. -/
def body0 : Nat → String := fun _ => ""

/-- An environment identical to `okWorld` except that writing the first
catalog entry raises. -/
def failW : World :=
  { okWorld with writeFails := fun p =>
      if p = [STACK_DIR_NAME, "scripts", "common.sh"] then some "Permission denied"
      else none }

theorem splitLines_ne_nil (cs : List Char) : splitLines cs ≠ [] := by
  induction cs with
  | nil => simp [splitLines]
  | cons c cs ih =>
    by_cases h : c = '\n'
    · simp [splitLines, h]
    · simp only [splitLines, if_neg h]
      cases hs : splitLines cs with
      | nil => simp
      | cons l ls => simp

theorem joinLines_splitLines (cs : List Char) : joinLines (splitLines cs) = cs := by
  induction cs with
  | nil => rfl
  | cons c cs ih =>
    by_cases h : c = '\n'
    · subst h
      simp only [splitLines, if_pos rfl]
      cases hs : splitLines cs with
      | nil => exact absurd hs (splitLines_ne_nil cs)
      | cons l ls =>
        rw [hs] at ih
        simpa [joinLines] using ih
    · simp only [splitLines, if_neg h]
      cases hs : splitLines cs with
      | nil => exact absurd hs (splitLines_ne_nil cs)
      | cons l ls =>
        rw [hs] at ih
        cases ls with
        | nil => simp only [joinLines] at ih ⊢; simp [ih]
        | cons l' ls' => simp only [joinLines] at ih ⊢; simp [ih]

theorem splitLines_no_newline (cs : List Char) : ∀ l ∈ splitLines cs, '\n' ∉ l := by
  induction cs with
  | nil => intro l hl; simp [splitLines] at hl; simp [hl]
  | cons c cs ih =>
    intro l hl
    by_cases h : c = '\n'
    · simp only [splitLines, if_pos h] at hl
      rcases List.mem_cons.mp hl with rfl | hl
      · simp
      · exact ih l hl
    · simp only [splitLines, if_neg h] at hl
      cases hs : splitLines cs with
      | nil => exact absurd hs (splitLines_ne_nil cs)
      | cons m ms =>
        rw [hs] at hl
        rcases List.mem_cons.mp hl with rfl | hl
        · intro hmem
          rcases List.mem_cons.mp hmem with rfl | hmem
          · exact h rfl
          · exact ih m (hs ▸ List.mem_cons_self m ms) hmem
        · exact ih l (hs ▸ List.mem_cons_of_mem m hl)

theorem splitLines_of_no_newline {l : List Char} (h : '\n' ∉ l) : splitLines l = [l] := by
  induction l with
  | nil => rfl
  | cons c cs ih =>
    have hc : c ≠ '\n' := fun hc => h (hc ▸ List.mem_cons_self c cs)
    have hcs : '\n' ∉ cs := fun hm => h (List.mem_cons_of_mem c hm)
    simp only [splitLines, if_neg hc, ih hcs]

theorem splitLines_append {l : Line} (h : '\n' ∉ l) (cs : List Char) :
    splitLines (l ++ '\n' :: cs) = l :: splitLines cs := by
  induction l with
  | nil => simp [splitLines]
  | cons c l ih =>
    have hc : c ≠ '\n' := fun hc => h (hc ▸ List.mem_cons_self c l)
    have hl : '\n' ∉ l := fun hm => h (List.mem_cons_of_mem c hm)
    simp only [List.cons_append, splitLines, if_neg hc]
    rw [show l.append ('\n' :: cs) = l ++ '\n' :: cs from rfl, ih hl]

theorem splitLines_joinLines {ls : List Line} (hne : ls ≠ [])
    (h : ∀ l ∈ ls, '\n' ∉ l) : splitLines (joinLines ls) = ls := by
  induction ls with
  | nil => exact absurd rfl hne
  | cons l ls ih =>
    cases ls with
    | nil =>
      simp only [joinLines]
      exact splitLines_of_no_newline (h l (List.mem_cons_self l []))
    | cons l' ls' =>
      simp only [joinLines]
      rw [splitLines_append (h l (List.mem_cons_self l _)) (joinLines (l' :: ls'))]
      rw [ih (by simp) (fun x hx => h x (List.mem_cons_of_mem l hx))]

theorem lstripNL_joinLines {ls : List Line} (h : ∀ l ∈ ls, '\n' ∉ l) :
    lstripNL (joinLines ls) = joinLines (ls.dropWhile (·.isEmpty)) := by
  induction ls with
  | nil => rfl
  | cons l ls ih =>
    have hl : '\n' ∉ l := h l (List.mem_cons_self l ls)
    have hls : ∀ x ∈ ls, '\n' ∉ x := fun x hx => h x (List.mem_cons_of_mem l hx)
    cases l with
    | nil =>
      cases ls with
      | nil => rfl
      | cons l' ls' =>
        simp only [joinLines, List.nil_append, List.dropWhile]
        simp only [List.isEmpty_nil, lstripNL, List.dropWhile]
        simp only [lstripNL] at ih
        exact ih hls
    | cons c l' =>
      have hc : c ≠ '\n' := fun hc => hl (hc ▸ List.mem_cons_self c l')
      have hstep : ∀ rest, lstripNL (c :: rest) = c :: rest := by
        intro rest
        simp [lstripNL, List.dropWhile, hc]
      cases ls with
      | nil =>
        simp only [joinLines, List.dropWhile, List.isEmpty_cons]
        exact hstep l'
      | cons m ms =>
        simp only [joinLines, List.dropWhile, List.isEmpty_cons, List.cons_append]
        exact hstep (l' ++ '\n' :: joinLines (m :: ms))

theorem pfx_iff {α : Type} [DecidableEq α] {a b : List α} :
    pfx a b = true ↔ ∃ t, a ++ t = b := by
  induction a generalizing b with
  | nil => simp [pfx]
  | cons x xs ih =>
    cases b with
    | nil => simp [pfx]
    | cons y ys =>
      simp only [pfx, Bool.and_eq_true, decide_eq_true_eq, ih, List.cons_append,
        List.cons.injEq]
      constructor
      · rintro ⟨rfl, t, rfl⟩; exact ⟨t, rfl, rfl⟩
      · rintro ⟨t, rfl, rfl⟩; exact ⟨rfl, t, rfl⟩

theorem pfx_append {α : Type} [DecidableEq α] (a t : List α) : pfx a (a ++ t) = true :=
  pfx_iff.mpr ⟨t, rfl⟩

theorem pfx_trans {α : Type} [DecidableEq α] {a b c : List α}
    (h1 : pfx a b = true) (h2 : pfx b c = true) : pfx a c = true := by
  rcases pfx_iff.mp h1 with ⟨t, rfl⟩
  rcases pfx_iff.mp h2 with ⟨u, rfl⟩
  exact pfx_iff.mpr ⟨t ++ u, by simp⟩

theorem lcp_pfx_left (a b : Line) : pfx (lcp a b) a = true := by
  induction a generalizing b with
  | nil => cases b <;> simp [lcp, pfx]
  | cons x xs ih =>
    cases b with
    | nil => simp [lcp, pfx]
    | cons y ys =>
      by_cases h : x = y
      · simp [lcp, h, pfx, ih]
      · simp [lcp, h, pfx]

theorem lcp_pfx_right (a b : Line) : pfx (lcp a b) b = true := by
  induction a generalizing b with
  | nil => cases b <;> simp [lcp, pfx]
  | cons x xs ih =>
    cases b with
    | nil => simp [lcp, pfx]
    | cons y ys =>
      by_cases h : x = y
      · subst h; simp [lcp, pfx, ih]
      · simp [lcp, h, pfx]

theorem lcp_append (m a b : Line) : lcp (m ++ a) (m ++ b) = m ++ lcp a b := by
  induction m with
  | nil => rfl
  | cons x xs ih => simp [lcp, ih]

theorem lcpFold_pfx_head (i : Line) (is : List Line) : pfx (lcpFold i is) i = true := by
  induction is generalizing i with
  | nil => simpa [lcpFold] using pfx_append i []
  | cons j js ih =>
    exact pfx_trans (ih (lcp i j)) (lcp_pfx_left i j)

theorem lcpFold_pfx_mem {x : Line} (i : Line) {is : List Line} (h : x ∈ is) :
    pfx (lcpFold i is) x = true := by
  induction is generalizing i with
  | nil => cases h
  | cons j js ih =>
    rcases List.mem_cons.mp h with rfl | h
    · exact pfx_trans (lcpFold_pfx_head (lcp i x) js) (lcp_pfx_right i x)
    · exact ih (lcp i j) h

theorem lcpFold_map_append (m i : Line) (is : List Line) :
    lcpFold (m ++ i) (is.map (m ++ ·)) = m ++ lcpFold i is := by
  induction is generalizing i with
  | nil => rfl
  | cons j js ih =>
    simp only [List.map_cons, lcpFold, List.foldl_cons, lcp_append]
    exact ih (lcp i j)

theorem append_cancel_self {α : Type} {m r : List α} (h : m ++ r = m) : r = [] := by
  have hlen := congrArg List.length h
  simp only [List.length_append] at hlen
  exact List.eq_nil_of_length_eq_zero (by omega)

theorem all_of_pfx {p : Char → Bool} {a b : Line} (h : pfx a b = true)
    (hb : b.all p = true) : a.all p = true := by
  rcases pfx_iff.mp h with ⟨t, rfl⟩
  simp only [List.all_append, Bool.and_eq_true] at hb
  exact hb.1

theorem leadingWS_all (l : Line) : (leadingWS l).all isWS = true := by
  induction l with
  | nil => rfl
  | cons c cs ih =>
    by_cases h : isWS c
    · simp [leadingWS, List.takeWhile, h]
    · simp only [Bool.not_eq_true] at h
      simp [leadingWS, List.takeWhile, h]

theorem leadingWS_pfx (l : Line) : pfx (leadingWS l) l = true :=
  pfx_iff.mpr ⟨l.dropWhile isWS, List.takeWhile_append_dropWhile isWS l⟩

theorem leadingWS_append {m : Line} (hm : m.all isWS = true) (t : Line) :
    leadingWS (m ++ t) = m ++ leadingWS t := by
  induction m with
  | nil => rfl
  | cons c cs ih =>
    simp only [List.all_cons, Bool.and_eq_true] at hm
    simp only [List.cons_append, leadingWS, List.takeWhile, hm.1]
    simpa [leadingWS] using ih hm.2

theorem exists_notWS {l : Line} (h : l.all isWS = false) : ∃ c ∈ l, isWS c = false := by
  by_contra hc
  push_neg at hc
  have hall : l.all isWS = true :=
    List.all_eq_true.mpr fun c hcl => by
      have := hc c hcl
      cases hws : isWS c
      · exact absurd hws this
      · rfl
  rw [hall] at h
  cases h

theorem blankToEmpty_cases (l : Line) :
    blankToEmpty l = [] ∨ (blankToEmpty l = l ∧ ∃ c ∈ l, isWS c = false) := by
  by_cases h : l.all isWS = true
  · exact Or.inl (by simp [blankToEmpty, h])
  · refine Or.inr ⟨by simp [blankToEmpty, h], ?_⟩
    exact exists_notWS (Bool.eq_false_iff.mpr h)

theorem not_isEmpty_of_ne_nil {α : Type} {l : List α} (h : l ≠ []) : l.isEmpty = false := by
  cases l with
  | nil => exact absurd rfl h
  | cons a as => rfl

theorem margin_pfx_leadingWS {ls : List Line} {n : Line} (hn : n ∈ ls) (hne : n ≠ []) :
    pfx (margin ls) (leadingWS n) = true := by
  have hmem : leadingWS n ∈ (ls.filter (fun l => !l.isEmpty)).map leadingWS :=
    List.mem_map_of_mem _
      (List.mem_filter.mpr ⟨hn, by rw [not_isEmpty_of_ne_nil hne]; rfl⟩)
  unfold margin
  cases hI : (ls.filter (fun l => !l.isEmpty)).map leadingWS with
  | nil => rw [hI] at hmem; cases hmem
  | cons i is =>
    rw [hI] at hmem
    rcases List.mem_cons.mp hmem with he | hm
    · rw [he]; exact lcpFold_pfx_head i is
    · exact lcpFold_pfx_mem i hm

theorem margin_allWS (ls : List Line) : (margin ls).all isWS = true := by
  unfold margin
  cases hI : (ls.filter (fun l => !l.isEmpty)).map leadingWS with
  | nil => rfl
  | cons i is =>
    have hi : i.all isWS = true := by
      have hmem : i ∈ (ls.filter (fun l => !l.isEmpty)).map leadingWS := by
        rw [hI]; exact List.mem_cons_self i is
      rcases List.mem_map.mp hmem with ⟨l, _, rfl⟩
      exact leadingWS_all l
    exact all_of_pfx (lcpFold_pfx_head i is) hi

theorem stripMargin_nil (l : Line) : stripMargin [] l = l := by
  simp [stripMargin, pfx]

theorem stripMargin_empty (m : Line) : stripMargin m [] = [] := by
  cases m with
  | nil => rfl
  | cons c cs => simp [stripMargin, pfx]

theorem mem_blanked_nonempty {ls : List Line} {n : Line}
    (h : n ∈ ls.map blankToEmpty) (hne : n ≠ []) : ∃ c ∈ n, isWS c = false := by
  rcases List.mem_map.mp h with ⟨l, _, rfl⟩
  rcases blankToEmpty_cases l with h0 | ⟨heq, hex⟩
  · exact absurd h0 hne
  · rw [heq]; exact hex

theorem stripMargin_spec {ls : List Line} {n : Line} (hmem : n ∈ ls)
    (hchar : ∃ c ∈ n, isWS c = false) :
    n = margin ls ++ stripMargin (margin ls) n ∧
    (∃ c ∈ stripMargin (margin ls) n, isWS c = false) ∧
    leadingWS n = margin ls ++ leadingWS (stripMargin (margin ls) n) := by
  have hne : n ≠ [] := by
    rintro rfl; rcases hchar with ⟨c, hc, -⟩; cases hc
  have hp1 : pfx (margin ls) (leadingWS n) = true := margin_pfx_leadingWS hmem hne
  have hp2 : pfx (margin ls) n = true := pfx_trans hp1 (leadingWS_pfx n)
  rcases pfx_iff.mp hp2 with ⟨t, ht⟩
  have hstrip : stripMargin (margin ls) n = t := by
    rw [stripMargin, if_pos hp2, ← ht, List.drop_left]
  refine ⟨by rw [hstrip, ht], ?_, ?_⟩
  · rcases hchar with ⟨c, hcn, hcw⟩
    rw [← ht] at hcn
    rcases List.mem_append.mp hcn with hcm | hct
    · have := List.all_eq_true.mp (margin_allWS ls) c hcm
      rw [this] at hcw; cases hcw
    · exact ⟨c, by rw [hstrip]; exact hct, hcw⟩
  · rw [hstrip, ← ht, leadingWS_append (margin_allWS ls)]

theorem filter_map_isEmpty {f : Line → Line} {l : List Line}
    (hf : ∀ x ∈ l, (f x).isEmpty = x.isEmpty) :
    (l.map f).filter (fun y => !y.isEmpty) = (l.filter (fun x => !x.isEmpty)).map f := by
  induction l with
  | nil => rfl
  | cons x xs ih =>
    have hx := hf x (List.mem_cons_self x xs)
    have hxs : ∀ y ∈ xs, (f y).isEmpty = y.isEmpty :=
      fun y hy => hf y (List.mem_cons_of_mem x hy)
    simp only [List.map_cons, List.filter_cons, hx]
    cases hxe : x.isEmpty with
    | false => simp [ih hxs]
    | true => simp [ih hxs]

theorem map_eq_self {f : Line → Line} {l : List Line} (h : ∀ x ∈ l, f x = x) :
    l.map f = l := by
  induction l with
  | nil => rfl
  | cons x xs ih =>
    simp only [List.map_cons, h x (List.mem_cons_self x xs),
      ih (fun y hy => h y (List.mem_cons_of_mem x hy))]

theorem map_congr_own {α β : Type} {f g : α → β} {l : List α}
    (h : ∀ x ∈ l, f x = g x) : l.map f = l.map g := by
  induction l with
  | nil => rfl
  | cons x xs ih =>
    simp only [List.map_cons, h x (List.mem_cons_self x xs),
      ih (fun y hy => h y (List.mem_cons_of_mem x hy))]

theorem dropWhile_congr_own {α : Type} {p q : α → Bool} {l : List α}
    (h : ∀ x ∈ l, p x = q x) : l.dropWhile p = l.dropWhile q := by
  induction l with
  | nil => rfl
  | cons x xs ih =>
    have hx := h x (List.mem_cons_self x xs)
    rw [List.dropWhile_cons, List.dropWhile_cons, hx,
      ih (fun y hy => h y (List.mem_cons_of_mem x hy))]

theorem dropWhile_dropWhile {α : Type} (p : α → Bool) (l : List α) :
    (l.dropWhile p).dropWhile p = l.dropWhile p := by
  induction l with
  | nil => rfl
  | cons x xs ih =>
    rw [List.dropWhile_cons]
    cases hx : p x with
    | true => simpa using ih
    | false => simp [List.dropWhile_cons, hx]

theorem mem_of_mem_dropWhile {α : Type} {p : α → Bool} {l : List α} {a : α}
    (h : a ∈ l.dropWhile p) : a ∈ l := by
  induction l with
  | nil => simp at h
  | cons x xs ih =>
    rw [List.dropWhile_cons] at h
    by_cases hx : p x = true
    · rw [if_pos hx] at h; exact List.mem_cons_of_mem x (ih h)
    · rw [if_neg hx] at h; exact h

theorem dropWhile_head_false {α : Type} {p : α → Bool} {l : List α} {a : α} {as : List α}
    (h : l.dropWhile p = a :: as) : p a = false := by
  induction l with
  | nil => cases h
  | cons x xs ih =>
    rw [List.dropWhile_cons] at h
    by_cases hx : p x = true
    · rw [if_pos hx] at h; exact ih h
    · rw [if_neg hx] at h
      injection h with h1 h2
      subst h1
      cases hpx : p x
      · rfl
      · exact absurd hpx hx

theorem filter_dropWhile_isEmpty (ls : List Line) :
    (ls.dropWhile (·.isEmpty)).filter (fun l => !l.isEmpty) =
      ls.filter (fun l => !l.isEmpty) := by
  induction ls with
  | nil => rfl
  | cons x xs ih =>
    rw [List.dropWhile_cons]
    cases hx : x.isEmpty with
    | true => simp [List.filter_cons, hx, ih]
    | false => simp [List.filter_cons, hx]

theorem dedentLines_mem {ls : List Line} {p : Line} (hp : p ∈ dedentLines ls) :
    p = [] ∨ ∃ c ∈ p, isWS c = false := by
  unfold dedentLines at hp
  rcases List.mem_map.mp hp with ⟨n, hn, rfl⟩
  by_cases hnil : n = []
  · subst hnil; exact Or.inl (stripMargin_empty _)
  · exact Or.inr (stripMargin_spec hn (mem_blanked_nonempty hn hnil)).2.1

theorem stripMargin_subset (m l : Line) : stripMargin m l ⊆ l := by
  unfold stripMargin
  split
  · exact List.drop_subset _ _
  · exact fun _ h => h

theorem blankToEmpty_subset (l : Line) : blankToEmpty l ⊆ l := by
  unfold blankToEmpty
  split
  · exact List.nil_subset l
  · exact fun _ h => h

theorem dedentLines_no_newline {ls : List Line} (h : ∀ l ∈ ls, '\n' ∉ l) :
    ∀ p ∈ dedentLines ls, '\n' ∉ p := by
  intro p hp hmem
  unfold dedentLines at hp
  rcases List.mem_map.mp hp with ⟨n, hn, rfl⟩
  rcases List.mem_map.mp hn with ⟨l, hl, rfl⟩
  exact h l hl (blankToEmpty_subset l (stripMargin_subset _ _ hmem))

theorem dedentLines_blank_fixed {ls : List Line} {p : Line} (hp : p ∈ dedentLines ls) :
    blankToEmpty p = p := by
  rcases dedentLines_mem hp with rfl | ⟨c, hc, hcw⟩
  · simp [blankToEmpty]
  · have hall : p.all isWS = false := by
      cases hall : p.all isWS
      · rfl
      · rw [List.all_eq_true.mp hall c hc] at hcw; cases hcw
    simp [blankToEmpty, hall]

theorem margin_eq_nil {ls : List Line}
    (h : ls.filter (fun l => !l.isEmpty) = []) : margin ls = [] := by
  unfold margin
  rw [h]
  rfl

theorem margin_eq_head_cons {ls : List Line} {n₀ : Line} {rest : List Line}
    (h : ls.filter (fun l => !l.isEmpty) = n₀ :: rest) :
    margin ls = lcpFold (leadingWS n₀) (rest.map leadingWS) := by
  unfold margin
  rw [h, List.map_cons]

theorem margin_filter_congr {ls ms : List Line}
    (h : ls.filter (fun l => !l.isEmpty) = ms.filter (fun l => !l.isEmpty)) :
    margin ls = margin ms := by
  unfold margin
  rw [h]

theorem margin_dedent (ls : List Line) : margin (dedentLines ls) = [] := by
  have hEmp : ∀ n ∈ ls.map blankToEmpty,
      (stripMargin (margin (ls.map blankToEmpty)) n).isEmpty = n.isEmpty := by
    intro n hn
    by_cases hnil : n = []
    · subst hnil; rw [stripMargin_empty]
    · rcases (stripMargin_spec hn (mem_blanked_nonempty hn hnil)).2.1 with ⟨c, hc, -⟩
      rw [not_isEmpty_of_ne_nil hnil, not_isEmpty_of_ne_nil (List.ne_nil_of_mem hc)]
  have hfm := filter_map_isEmpty hEmp
  show margin ((ls.map blankToEmpty).map (stripMargin (margin (ls.map blankToEmpty)))) = []
  cases hnsf : (ls.map blankToEmpty).filter (fun l => !l.isEmpty) with
  | nil => exact margin_eq_nil (by rw [hfm, hnsf, List.map_nil])
  | cons n₀ rest =>
    have hmemf : ∀ n ∈ n₀ :: rest, n ∈ ls.map blankToEmpty ∧ n ≠ [] := by
      intro n hn
      have hn' : n ∈ (ls.map blankToEmpty).filter (fun l => !l.isEmpty) := by
        rw [hnsf]; exact hn
      rcases List.mem_filter.mp hn' with ⟨hmem, hne⟩
      refine ⟨hmem, ?_⟩
      intro hcon
      rw [hcon] at hne
      cases hne
    have hLW : ∀ n ∈ n₀ :: rest,
        leadingWS n =
          margin (ls.map blankToEmpty) ++
            leadingWS (stripMargin (margin (ls.map blankToEmpty)) n) := by
      intro n hn
      rcases hmemf n hn with ⟨hmem, hne⟩
      exact (stripMargin_spec hmem (mem_blanked_nonempty hmem hne)).2.2
    have hMm := margin_eq_head_cons hnsf
    have hA := hLW n₀ (List.mem_cons_self n₀ rest)
    have hB : rest.map leadingWS =
        (rest.map fun n => leadingWS (stripMargin (margin (ls.map blankToEmpty)) n)).map
          (margin (ls.map blankToEmpty) ++ ·) := by
      rw [List.map_map]
      exact map_congr_own fun n hn => hLW n (List.mem_cons_of_mem n₀ hn)
    have hEq : margin (ls.map blankToEmpty) =
        margin (ls.map blankToEmpty) ++
          lcpFold (leadingWS (stripMargin (margin (ls.map blankToEmpty)) n₀))
            (rest.map fun n => leadingWS (stripMargin (margin (ls.map blankToEmpty)) n)) := by
      conv_lhs => rw [hMm, hA, hB]
      rw [lcpFold_map_append]
    have hz := append_cancel_self hEq.symm
    have hfm2 : ((ls.map blankToEmpty).map
          (stripMargin (margin (ls.map blankToEmpty)))).filter (fun l => !l.isEmpty) =
        stripMargin (margin (ls.map blankToEmpty)) n₀ ::
          rest.map (stripMargin (margin (ls.map blankToEmpty))) := by
      rw [hfm, hnsf, List.map_cons]
    rw [margin_eq_head_cons hfm2, List.map_map]
    simpa [Function.comp] using hz

theorem transformChars_eq (cs : List Char) :
    transformChars cs =
      joinLines ((dedentLines (splitLines cs)).dropWhile (·.isEmpty)) := by
  unfold transformChars dedentChars
  exact lstripNL_joinLines (dedentLines_no_newline (splitLines_no_newline cs))

theorem transformChars_fixed {ps : List Line}
    (hnoNL : ∀ p ∈ ps, '\n' ∉ p)
    (hfix : ∀ p ∈ ps, blankToEmpty p = p)
    (hm : margin ps = [])
    (hhead : ps.dropWhile (·.isEmpty) = ps) :
    transformChars (joinLines ps) = joinLines ps := by
  by_cases hne : ps = []
  · subst hne; rfl
  · unfold transformChars dedentChars
    rw [splitLines_joinLines hne hnoNL]
    have hded : dedentLines ps = ps := by
      unfold dedentLines
      rw [map_eq_self hfix]
      show ps.map (stripMargin (margin ps)) = ps
      rw [hm]
      exact map_eq_self fun p _ => stripMargin_nil p
    rw [hded, lstripNL_joinLines hnoNL, hhead]

theorem transformChars_idem (cs : List Char) :
    transformChars (transformChars cs) = transformChars cs := by
  have hnoNL : ∀ p ∈ dedentLines (splitLines cs), '\n' ∉ p :=
    dedentLines_no_newline (splitLines_no_newline cs)
  have hnoNL' : ∀ p ∈ (dedentLines (splitLines cs)).dropWhile (·.isEmpty), '\n' ∉ p :=
    fun p hp => hnoNL p (mem_of_mem_dropWhile hp)
  have hfix' : ∀ p ∈ (dedentLines (splitLines cs)).dropWhile (·.isEmpty),
      blankToEmpty p = p :=
    fun p hp => dedentLines_blank_fixed (mem_of_mem_dropWhile hp)
  have hm' : margin ((dedentLines (splitLines cs)).dropWhile (·.isEmpty)) = [] :=
    (margin_filter_congr (filter_dropWhile_isEmpty _)).trans (margin_dedent _)
  rw [transformChars_eq cs]
  exact transformChars_fixed hnoNL' hfix' hm'
    (dropWhile_dropWhile (·.isEmpty) (dedentLines (splitLines cs)))

theorem filter_congr_own {α : Type} {p q : α → Bool} {l : List α}
    (h : ∀ x ∈ l, p x = q x) : l.filter p = l.filter q := by
  induction l with
  | nil => rfl
  | cons x xs ih =>
    rw [List.filter_cons, List.filter_cons, h x (List.mem_cons_self x xs),
      ih (fun y hy => h y (List.mem_cons_of_mem x hy))]

theorem all_eq_false_of_mem {α : Type} {p : α → Bool} {l : List α} {a : α}
    (ha : a ∈ l) (hpa : p a = false) : l.all p = false := by
  cases hall : l.all p
  · rfl
  · rw [List.all_eq_true.mp hall a ha] at hpa; cases hpa

theorem claimMargin_blanked (ls : List Line) :
    claimMargin (ls.map blankToEmpty) = margin (ls.map blankToEmpty) := by
  have hflt : (ls.map blankToEmpty).filter (fun l => !(isBlank l)) =
      (ls.map blankToEmpty).filter (fun l => !l.isEmpty) := by
    refine filter_congr_own fun n hn => ?_
    by_cases hnil : n = []
    · subst hnil; rfl
    · rcases mem_blanked_nonempty hn hnil with ⟨c, hc, hcw⟩
      rw [isBlank, all_eq_false_of_mem hc hcw, not_isEmpty_of_ne_nil hnil]
  unfold claimMargin margin
  rw [hflt]

theorem transformChars_eq_amended (cs : List Char) :
    transformChars cs =
      joinLines
        ((((splitLines cs).map blankToEmpty).map
            (stripMargin (claimMargin ((splitLines cs).map blankToEmpty)))).dropWhile
          isBlank) := by
  rw [transformChars_eq, claimMargin_blanked]
  have h1 : ((splitLines cs).map blankToEmpty).map
      (stripMargin (margin ((splitLines cs).map blankToEmpty))) =
      dedentLines (splitLines cs) := rfl
  rw [h1]
  congr 1
  refine (dropWhile_congr_own fun p hp => ?_).symm
  rcases dedentLines_mem hp with rfl | ⟨c, hc, hcw⟩
  · rfl
  · show isBlank p = p.isEmpty
    rw [isBlank, all_eq_false_of_mem hc hcw,
      not_isEmpty_of_ne_nil (List.ne_nil_of_mem hc)]

theorem transform_eq_amendedTransform (s : String) :
    transform s = amendedTransform s :=
  congrArg String.mk (transformChars_eq_amended s.data)

theorem lookupA_setA_self {β : Type} (fs : List (FPath × β)) (p : FPath) (v : β) :
    lookupA (setA fs p v) p = some v := by
  induction fs with
  | nil => simp [setA, lookupA]
  | cons e es ih =>
    by_cases h : e.1 = p
    · simp [setA, h, lookupA]
    · simp [setA, h, lookupA, ih]

theorem lookupA_setA_ne {β : Type} (fs : List (FPath × β)) {p q : FPath}
    (h : q ≠ p) (v : β) : lookupA (setA fs p v) q = lookupA fs q := by
  have h' : ¬ p = q := fun he => h he.symm
  induction fs with
  | nil => simp [setA, lookupA, h']
  | cons e es ih =>
    by_cases he : e.1 = p
    · subst he
      simp [setA, lookupA, h']
    · simp only [setA, if_neg he, lookupA]
      by_cases hq : e.1 = q
      · simp [hq]
      · simp [hq, ih]

theorem setA_unchanged {β : Type} {fs : List (FPath × β)} {p : FPath} {v : β}
    (h : lookupA fs p = some v) : setA fs p v = fs := by
  induction fs with
  | nil => simp [lookupA] at h
  | cons e es ih =>
    by_cases he : e.1 = p
    · obtain ⟨e1, e2⟩ := e
      simp only at he
      subst he
      have h2 : e2 = v := Option.some.inj (by simpa [lookupA] using h)
      subst h2
      simp [setA]
    · simp only [lookupA, if_neg he] at h
      simp [setA, he, ih h]

theorem setA_absorb {β : Type} (fs : List (FPath × β)) (p : FPath) (v v' : β) :
    setA (setA fs p v) p v' = setA fs p v' := by
  induction fs with
  | nil => simp [setA]
  | cons e es ih =>
    by_cases he : e.1 = p
    · simp [setA, he]
    · simp [setA, he, ih]

theorem setA_comm {β : Type} (fs : List (FPath × β)) {p q : FPath} (h : p ≠ q)
    (hp : lookupA fs p ≠ none) (v u : β) :
    setA (setA fs q u) p v = setA (setA fs p v) q u := by
  have h' : ¬ q = p := fun he => h he.symm
  induction fs with
  | nil => simp [lookupA] at hp
  | cons e es ih =>
    by_cases hep : e.1 = p
    · have heq : ¬ e.1 = q := fun he => h (hep ▸ he ▸ rfl)
      simp [setA, hep, heq, h, h']
    · by_cases heq : e.1 = q
      · simp [setA, hep, heq, h, h']
      · simp only [lookupA, if_neg hep] at hp
        simp [setA, hep, heq, ih hp]

theorem filter_setA {β : Type} (fs : List (FPath × β)) (pr : FPath × β → Bool)
    (p : FPath) (v : β) (hp : ∀ u : β, pr (p, u) = false) :
    (setA fs p v).filter pr = fs.filter pr := by
  induction fs with
  | nil => simp [setA, List.filter_cons, hp v]
  | cons e es ih =>
    by_cases he : e.1 = p
    · obtain ⟨e1, e2⟩ := e
      simp only at he
      subst he
      simp [setA, List.filter_cons, hp v, hp e2]
    · simp [setA, he, List.filter_cons, ih]

theorem map_fst_setA {β : Type} (fs : List (FPath × β)) (p : FPath) (v : β)
    (h : lookupA fs p ≠ none) : (setA fs p v).map (·.1) = fs.map (·.1) := by
  induction fs with
  | nil => simp [lookupA] at h
  | cons e es ih =>
    by_cases he : e.1 = p
    · simp [setA, he]
    · simp only [lookupA, if_neg he] at h
      simp [setA, he, ih h]

theorem lookupA_isSome_iff_mem {β : Type} (fs : List (FPath × β)) (p : FPath) :
    lookupA fs p ≠ none ↔ p ∈ fs.map (·.1) := by
  induction fs with
  | nil => simp [lookupA]
  | cons e es ih =>
    by_cases he : e.1 = p
    · simp only [lookupA, if_pos he, List.map_cons, List.mem_cons]
      constructor
      · intro _
        exact Or.inl he.symm
      · intro _
        exact Option.some_ne_none _
    · simp only [lookupA, if_neg he, List.map_cons, List.mem_cons, ih]
      constructor
      · exact fun h => Or.inr h
      · rintro (h | h)
        · exact absurd h.symm he
        · exact h

theorem log_info_def (w : World) (m : String) (s : Gen) :
    log_info w m s =
      { s with tick := s.tick + 1,
               files := setA s.files ACTIONS_LOG
                 (getFileD s ACTIONS_LOG ++ infoLine (w.clock s.tick) m),
               actionsRecs := s.actionsRecs ++ [infoLine (w.clock s.tick) m],
               out := s.out ++ [infoLine (w.clock s.tick) m] } := rfl

theorem log_error_def (w : World) (m : String) (s : Gen) :
    log_error w m s =
      { s with tick := s.tick + 1,
               files := setA s.files ERRORS_LOG
                 (getFileD s ERRORS_LOG ++ errorLine w (w.clock s.tick) m),
               errorRecs := s.errorRecs ++ [errorLine w (w.clock s.tick) m],
               errOut := s.errOut ++ [errorLine w (w.clock s.tick) m] } := rfl

theorem safe_write_ok (w : World) (p : FPath) (c : String) (s : Gen)
    (h : w.writeFails p = none) :
    safe_write w p c s =
      (.ok (), log_info w ("Wrote file: " ++ pathStr w p)
        { s with dirs := mkDirs p.dropLast s.dirs,
                 files := setA s.files p (transform c) }) := by
  unfold safe_write
  rw [h]
  rfl

theorem safe_write_fail (w : World) (p : FPath) (c : String) (s : Gen) (m : String)
    (h : w.writeFails p = some m) :
    safe_write w p c s =
      (.exn m, log_error w ("Failed to write " ++ pathStr w p ++ ": " ++ m)
        { s with dirs := mkDirs p.dropLast s.dirs }) := by
  unfold safe_write
  rw [h]
  rfl

theorem make_executable_ok (w : World) (p : FPath) (s : Gen)
    (h : w.chmodFails p = none) :
    make_executable w p s =
      (.ok (), log_info w ("Marked executable: " ++ pathStr w p)
        { s with modes := setA s.modes p (getMode w s p ||| execBits) }) := by
  unfold make_executable
  rw [h]

theorem make_executable_fail (w : World) (p : FPath) (s : Gen) (m : String)
    (h : w.chmodFails p = some m) :
    make_executable w p s =
      (.exn m, log_error w ("Failed to chmod +x " ++ pathStr w p ++ ": " ++ m) s) := by
  unfold make_executable
  rw [h]

theorem create_zip_ok (w : World) (root : FPath) (s : Gen)
    (h : w.zipFails = none) :
    create_zip w root s =
      (.ok [root.getLastD "" ++ ".zip"],
        log_info w
          ("Created ZIP archive: " ++ pathStr w [root.getLastD "" ++ ".zip"])
          { s with
              zips := setA s.zips [root.getLastD "" ++ ".zip"] (zipEntries s root) }) := by
  unfold create_zip
  rw [h]

theorem create_zip_fail (w : World) (root : FPath) (s : Gen) (m : String)
    (h : w.zipFails = some m) :
    create_zip w root s =
      (.exn m, log_error w
        ("Failed to create zip " ++ pathStr w [root.getLastD "" ++ ".zip"] ++
          ": " ++ m) s) := by
  unfold create_zip
  rw [h]

theorem create_stack_files_eq (w : World) (body : Nat → String) (s : Gen) :
    create_stack_files w body [STACK_DIR_NAME] s =
      writeEntries w (stackEntries body) s := rfl

/-- Effects of a fully successful `writeEntries` run. -/
theorem writeEntries_ok (w : World) (entries : List (FPath × String)) (s : Gen)
    (h : ∀ e ∈ entries, w.writeFails e.1 = none) :
    (writeEntries w entries s).1 = .ok () ∧
    (writeEntries w entries s).2.modes = s.modes ∧
    (writeEntries w entries s).2.zips = s.zips ∧
    (writeEntries w entries s).2.errorRecs = s.errorRecs ∧
    (writeEntries w entries s).2.errOut = s.errOut ∧
    (writeEntries w entries s).2.dirs =
      entries.foldl (fun ds e => mkDirs e.1.dropLast ds) s.dirs ∧
    (∀ q, q ≠ ACTIONS_LOG →
      lookupA (writeEntries w entries s).2.files q =
        (match lastWrite entries q with
         | some c => some (transform c)
         | none => lookupA s.files q)) ∧
    (∃ t, (writeEntries w entries s).2.actionsRecs = s.actionsRecs ++ t ∧
      ∀ r ∈ t, ∃ (td : DateTime), ∃ e ∈ entries,
        r = infoLine td ("Wrote file: " ++ pathStr w e.1)) := by
  induction entries generalizing s with
  | nil =>
    refine ⟨rfl, rfl, rfl, rfl, rfl, rfl, fun q _ => rfl, [], by simp [writeEntries], ?_⟩
    intro r hr
    cases hr
  | cons e rest ih =>
    obtain ⟨p, c⟩ := e
    have h0 : w.writeFails p = none := h (p, c) (List.mem_cons_self _ _)
    have hrest : ∀ e ∈ rest, w.writeFails e.1 = none :=
      fun e he => h e (List.mem_cons_of_mem _ he)
    rw [writeEntries, safe_write_ok w p c s h0]
    simp only [bindR]
    obtain ⟨ih1, ih2, ih3, ih4, ih5, ih6, ih7, t, iht, ihtP⟩ := ih _ hrest
    refine ⟨ih1, ?_, ?_, ?_, ?_, ?_, ?_, ?_⟩
    · rw [ih2, log_info_def]
    · rw [ih3, log_info_def]
    · rw [ih4, log_info_def]
    · rw [ih5, log_info_def]
    · rw [ih6, log_info_def, List.foldl_cons]
    · intro q hq
      rw [ih7 q hq, log_info_def]
      simp only [lastWrite]
      cases hlw : lastWrite rest q with
      | some c' => rfl
      | none =>
        show lookupA (setA _ ACTIONS_LOG _) q = _
        rw [lookupA_setA_ne _ hq]
        by_cases hpq : p = q
        · subst hpq
          simp [lookupA_setA_self]
        · simp only [if_neg hpq]
          exact lookupA_setA_ne _ (fun hcon => hpq hcon.symm) _
    · refine ⟨infoLine (w.clock s.tick) ("Wrote file: " ++ pathStr w p) :: t, ?_, ?_⟩
      · rw [iht, log_info_def]
        simp
      · intro r hr
        rcases List.mem_cons.mp hr with rfl | hr
        · exact ⟨w.clock s.tick, (p, c), List.mem_cons_self _ _, rfl⟩
        · obtain ⟨td, e, he, hre⟩ := ihtP r hr
          exact ⟨td, e, List.mem_cons_of_mem _ he, hre⟩

/-- When the chain of writes is applied to a state that already holds the
very bytes each write produces, the file table is unchanged except for the
actions-log entry. -/
theorem writeEntries_rewrite (w : World) (entries : List (FPath × String)) (s : Gen)
    (hok : ∀ e ∈ entries, w.writeFails e.1 = none)
    (hpresent : ∀ e ∈ entries, lookupA s.files e.1 = some (transform e.2))
    (hL : lookupA s.files ACTIONS_LOG ≠ none)
    (hne : ∀ e ∈ entries, e.1 ≠ ACTIONS_LOG) :
    ∃ a, (writeEntries w entries s).2.files = setA s.files ACTIONS_LOG a := by
  induction entries generalizing s with
  | nil =>
    refine ⟨getFileD s ACTIONS_LOG, ?_⟩
    cases hEx : lookupA s.files ACTIONS_LOG with
    | none => exact absurd hEx hL
    | some v =>
      show s.files = _
      rw [getFileD, hEx, Option.getD_some, setA_unchanged hEx]
  | cons e rest ih =>
    obtain ⟨p, c⟩ := e
    rw [writeEntries, safe_write_ok w p c s (hok (p, c) (List.mem_cons_self _ _))]
    simp only [bindR]
    have hw : setA s.files p (transform c) = s.files :=
      setA_unchanged (hpresent (p, c) (List.mem_cons_self _ _))
    have hstep : ∀ e ∈ rest, lookupA
        (log_info w ("Wrote file: " ++ pathStr w p)
          { s with dirs := mkDirs p.dropLast s.dirs,
                   files := setA s.files p (transform c) }).files e.1 =
        some (transform e.2) := by
      intro e he
      rw [log_info_def]
      show lookupA (setA _ ACTIONS_LOG _) e.1 = _
      rw [lookupA_setA_ne _ (hne e (List.mem_cons_of_mem _ he))]
      simp only [hw]
      exact hpresent e (List.mem_cons_of_mem _ he)
    have hstepL : lookupA
        (log_info w ("Wrote file: " ++ pathStr w p)
          { s with dirs := mkDirs p.dropLast s.dirs,
                   files := setA s.files p (transform c) }).files ACTIONS_LOG ≠
        none := by
      rw [log_info_def]
      show lookupA (setA _ ACTIONS_LOG _) ACTIONS_LOG ≠ none
      rw [lookupA_setA_self]
      exact Option.some_ne_none _
    obtain ⟨a, ha⟩ := ih _ (fun e he => hok e (List.mem_cons_of_mem _ he)) hstep
      hstepL (fun e he => hne e (List.mem_cons_of_mem _ he))
    refine ⟨a, ?_⟩
    rw [ha, log_info_def]
    show setA (setA _ ACTIONS_LOG _) ACTIONS_LOG a = _
    rw [hw, setA_absorb]

/-- Effects of a fully successful `chmodList` run. -/
theorem chmodList_ok (w : World) (ps : List FPath) (s : Gen)
    (h : ∀ p ∈ ps, w.chmodFails p = none) :
    (chmodList w ps s).1 = .ok () ∧
    (chmodList w ps s).2.zips = s.zips ∧
    (chmodList w ps s).2.errorRecs = s.errorRecs ∧
    (chmodList w ps s).2.errOut = s.errOut ∧
    (chmodList w ps s).2.dirs = s.dirs ∧
    (∀ q, q ≠ ACTIONS_LOG →
      lookupA (chmodList w ps s).2.files q = lookupA s.files q) ∧
    ((chmodList w ps s).2.files = s.files ∨
      ∃ a, (chmodList w ps s).2.files = setA s.files ACTIONS_LOG a) ∧
    (∀ q, q ∉ ps → lookupA (chmodList w ps s).2.modes q = lookupA s.modes q) ∧
    (∀ q, q ∈ ps →
      ∃ m0, lookupA (chmodList w ps s).2.modes q = some (m0 ||| execBits)) ∧
    (∃ t, (chmodList w ps s).2.actionsRecs = s.actionsRecs ++ t ∧
      ∀ r ∈ t, ∃ (td : DateTime), ∃ p' ∈ ps,
        r = infoLine td ("Marked executable: " ++ pathStr w p')) := by
  induction ps generalizing s with
  | nil =>
    refine ⟨rfl, rfl, rfl, rfl, rfl, fun q _ => rfl, Or.inl rfl, fun q _ => rfl,
      ?_, [], by simp [chmodList], ?_⟩
    · intro q hq
      cases hq
    · intro r hr
      cases hr
  | cons p rest ih =>
    have h0 : w.chmodFails p = none := h p (List.mem_cons_self _ _)
    have hrest : ∀ q ∈ rest, w.chmodFails q = none :=
      fun q hq => h q (List.mem_cons_of_mem _ hq)
    rw [chmodList, make_executable_ok w p s h0]
    simp only [bindR]
    obtain ⟨ih1, ih2, ih3, ih4, ih5, ih6, ih7, ih8, ih9, t, iht, ihtP⟩ := ih _ hrest
    refine ⟨ih1, ?_, ?_, ?_, ?_, ?_, ?_, ?_, ?_, ?_⟩
    · rw [ih2, log_info_def]
    · rw [ih3, log_info_def]
    · rw [ih4, log_info_def]
    · rw [ih5, log_info_def]
    · intro q hq
      rw [ih6 q hq, log_info_def]
      show lookupA (setA _ ACTIONS_LOG _) q = _
      exact lookupA_setA_ne _ hq _
    · rcases ih7 with hfe | ⟨a, ha⟩
      · refine Or.inr ⟨?_, ?_⟩
        · exact getFileD { s with modes := setA s.modes p (getMode w s p ||| execBits) }
            ACTIONS_LOG ++ infoLine (w.clock s.tick) ("Marked executable: " ++ pathStr w p)
        · rw [hfe, log_info_def]
      · refine Or.inr ⟨a, ?_⟩
        rw [ha, log_info_def]
        show setA (setA _ ACTIONS_LOG _) ACTIONS_LOG a = _
        rw [setA_absorb]
    · intro q hq
      have hqp : q ≠ p := fun hc => hq (hc ▸ List.mem_cons_self _ _)
      have hqrest : q ∉ rest := fun hc => hq (List.mem_cons_of_mem _ hc)
      rw [ih8 q hqrest, log_info_def]
      show lookupA (setA s.modes p _) q = _
      exact lookupA_setA_ne _ hqp _
    · intro q hq
      rcases List.mem_cons.mp hq with rfl | hq
      · by_cases hqr : q ∈ rest
        · exact ih9 q hqr
        · refine ⟨getMode w s q, ?_⟩
          rw [ih8 q hqr, log_info_def]
          show lookupA (setA s.modes q _) q = _
          exact lookupA_setA_self _ _ _
      · exact ih9 q hq
    · refine ⟨infoLine (w.clock s.tick) ("Marked executable: " ++ pathStr w p) :: t,
        ?_, ?_⟩
      · rw [iht, log_info_def]
        simp
      · intro r hr
        rcases List.mem_cons.mp hr with rfl | hr
        · exact ⟨w.clock s.tick, p, List.mem_cons_self _ _, rfl⟩
        · obtain ⟨td, p', hp', hrp⟩ := ihtP r hr
          exact ⟨td, p', List.mem_cons_of_mem _ hp', hrp⟩

theorem pair_split {α β : Type} {x : α} (r : α × β) (h : r.1 = x) : r = (x, r.2) := by
  obtain ⟨a, b⟩ := r
  rw [← h]

theorem shGlob_mem (t : Gen) (q : FPath) :
    q ∈ shGlob t [STACK_DIR_NAME] ↔
      lookupA t.files q ≠ none ∧ isScriptSh q = true := by
  rw [show shGlob t [STACK_DIR_NAME] = (t.files.map (·.1)).filter isScriptSh from rfl]
  rw [List.mem_filter, lookupA_isSome_iff_mem]

theorem stackEntries_map_fst (body : Nat → String) :
    (stackEntries body).map (·.1) = stackPathsList := rfl

theorem stackPaths_ne_logs :
    ∀ x ∈ stackPathsList, x ≠ ACTIONS_LOG ∧ x ≠ ERRORS_LOG := by decide

theorem stackEntries_fst_ne_logs (body : Nat → String) :
    ∀ e ∈ stackEntries body, e.1 ≠ ACTIONS_LOG := by
  intro e he
  exact (stackPaths_ne_logs e.1
    (stackEntries_map_fst body ▸ List.mem_map_of_mem _ he)).1

theorem scriptSh_ne_actions {q : FPath} (h : isScriptSh q = true) :
    q ≠ ACTIONS_LOG :=
  fun he => by rw [he] at h; exact absurd h (by decide)

theorem scriptSh_ne_install {q : FPath} (h : isScriptSh q = true) :
    q ≠ [STACK_DIR_NAME] ++ ["install.sh"] :=
  fun he => by rw [he] at h; exact absurd h (by decide)

theorem log_info_errorRecs (w : World) (m : String) (s : Gen) :
    (log_info w m s).errorRecs = s.errorRecs := rfl

theorem log_info_errOut (w : World) (m : String) (s : Gen) :
    (log_info w m s).errOut = s.errOut := rfl

theorem log_info_modes (w : World) (m : String) (s : Gen) :
    (log_info w m s).modes = s.modes := rfl

theorem log_info_zips (w : World) (m : String) (s : Gen) :
    (log_info w m s).zips = s.zips := rfl

theorem log_info_dirs (w : World) (m : String) (s : Gen) :
    (log_info w m s).dirs = s.dirs := rfl

theorem log_info_actionsRecs (w : World) (m : String) (s : Gen) :
    (log_info w m s).actionsRecs =
      s.actionsRecs ++ [infoLine (w.clock s.tick) m] := rfl

theorem log_info_files_ne (w : World) (m : String) (s : Gen) {q : FPath}
    (h : q ≠ ACTIONS_LOG) :
    lookupA (log_info w m s).files q = lookupA s.files q := by
  rw [log_info_def]
  show lookupA (setA _ ACTIONS_LOG _) q = _
  exact lookupA_setA_ne _ h _

theorem log_error_actionsRecs (w : World) (m : String) (s : Gen) :
    (log_error w m s).actionsRecs = s.actionsRecs := rfl

theorem log_error_out (w : World) (m : String) (s : Gen) :
    (log_error w m s).out = s.out := rfl

theorem log_error_dirs (w : World) (m : String) (s : Gen) :
    (log_error w m s).dirs = s.dirs := rfl

theorem log_error_files_ne (w : World) (m : String) (s : Gen) {q : FPath}
    (h : q ≠ ERRORS_LOG) :
    lookupA (log_error w m s).files q = lookupA s.files q := by
  rw [log_error_def]
  show lookupA (setA _ ERRORS_LOG _) q = _
  exact lookupA_setA_ne _ h _

theorem exists_exec_mode (ms : List (FPath × Nat)) (p : FPath) (v bits : Nat) :
    ∃ m0, lookupA (setA ms p (v ||| bits)) p = some (m0 ||| bits) :=
  ⟨v, lookupA_setA_self _ _ _⟩

theorem exists_setA_step {fs Y : List (FPath × String)} {L : FPath} (v : String)
    (h : ∃ a, Y = setA fs L a) : ∃ a, setA Y L v = setA fs L a := by
  obtain ⟨a, ha⟩ := h
  exact ⟨v, by rw [ha, setA_absorb]⟩

/-- Effects of a successful pass through `main`'s try block, started from an
arbitrary state. -/
theorem log_info_files_setA_base (w : World) (m : String) (s : Gen)
    {X : List (FPath × String)} (h : s.files = X) :
    ∃ a, (log_info w m s).files = setA X ACTIONS_LOG a := by
  refine ⟨getFileD { s with tick := s.tick + 1 } ACTIONS_LOG ++
    infoLine (w.clock s.tick) m, ?_⟩
  show setA s.files ACTIONS_LOG _ = _
  rw [h]
  rfl

theorem exists_setA_log_info (w : World) (m : String) (s : Gen)
    {X : List (FPath × String)}
    (h : ∃ a, s.files = setA X ACTIONS_LOG a) :
    ∃ a, (log_info w m s).files = setA X ACTIONS_LOG a := by
  obtain ⟨a, ha⟩ := h
  refine ⟨getFileD { s with tick := s.tick + 1 } ACTIONS_LOG ++
    infoLine (w.clock s.tick) m, ?_⟩
  show setA s.files ACTIONS_LOG _ = _
  rw [ha, setA_absorb]
  rfl

theorem mainTry_ok (w : World) (body : Nat → String) (s : Gen)
    (h1 : ∀ p, w.writeFails p = none) (h2 : ∀ p, w.chmodFails p = none)
    (h3 : w.zipFails = none) :
    (mainTry w body [STACK_DIR_NAME] s).1 = .ok () ∧
    (mainTry w body [STACK_DIR_NAME] s).2.errorRecs = s.errorRecs ∧
    (mainTry w body [STACK_DIR_NAME] s).2.errOut = s.errOut ∧
    (∀ q, q ≠ ACTIONS_LOG →
      lookupA (mainTry w body [STACK_DIR_NAME] s).2.files q = finalFile body s q) ∧
    (mainTry w body [STACK_DIR_NAME] s).2.dirs =
      mkDirs ([STACK_DIR_NAME] ++ ["logs"])
        ((stackEntries body).foldl (fun ds e => mkDirs e.1.dropLast ds) s.dirs) ∧
    (∃ sz : Gen,
      (mainTry w body [STACK_DIR_NAME] s).2.zips =
        setA s.zips ZIP_PATH (zipEntries sz [STACK_DIR_NAME]) ∧
      sz.dirs = mkDirs ([STACK_DIR_NAME] ++ ["logs"])
        ((stackEntries body).foldl (fun ds e => mkDirs e.1.dropLast ds) s.dirs) ∧
      (∀ q, q ≠ ACTIONS_LOG → lookupA sz.files q = finalFile body s q) ∧
      ((∀ e ∈ stackEntries body, lookupA s.files e.1 = some (transform e.2)) →
        lookupA s.files ACTIONS_LOG ≠ none →
        ∃ a, sz.files = setA s.files ACTIONS_LOG a) ∧
      (∃ a, (mainTry w body [STACK_DIR_NAME] s).2.files =
        setA sz.files ACTIONS_LOG a)) ∧
    (∀ q, (finalFile body s q ≠ none ∧ isScriptSh q = true) ∨
        q = [STACK_DIR_NAME] ++ ["install.sh"] →
      ∃ m0, lookupA (mainTry w body [STACK_DIR_NAME] s).2.modes q =
        some (m0 ||| execBits)) ∧
    (∀ q, ¬(finalFile body s q ≠ none ∧ isScriptSh q = true) →
      q ≠ [STACK_DIR_NAME] ++ ["install.sh"] →
      lookupA (mainTry w body [STACK_DIR_NAME] s).2.modes q = lookupA s.modes q) ∧
    (∃ t, (mainTry w body [STACK_DIR_NAME] s).2.actionsRecs = s.actionsRecs ++ t ∧
      ∀ r ∈ t, ∃ (td : DateTime) (m' : String),
        r = infoLine td m' ∧ tryInfoMsg w body s m') := by
  obtain ⟨w1, w2, w3, w4, w5, w6, w7, tW, hWt, hWtP⟩ :=
    writeEntries_ok w (stackEntries body) s (fun e _ => h1 e.1)
  obtain ⟨c1, c2, c3, c4, c5, c6, c7, c8, c9, tC, hCt, hCtP⟩ :=
    chmodList_ok w
      (shGlob (writeEntries w (stackEntries body) s).2 [STACK_DIR_NAME])
      (writeEntries w (stackEntries body) s).2 (fun p _ => h2 p)
  have hneL : ∀ e ∈ stackEntries body, e.1 ≠ ACTIONS_LOG :=
    stackEntries_fst_ne_logs body
  unfold mainTry
  rw [create_stack_files_eq, pair_split _ w1]
  simp only [bindR]
  rw [pair_split _ c1]
  simp only [bindR]
  rw [make_executable_ok w ([STACK_DIR_NAME] ++ ["install.sh"]) _ (h2 _)]
  simp only [bindR]
  rw [create_zip_ok w [STACK_DIR_NAME] _ h3]
  simp only [bindR]
  refine And.intro trivial (And.intro ?_ (And.intro ?_ (And.intro ?_ (And.intro ?_
    (And.intro ?_ (And.intro ?_ (And.intro ?_ ?_)))))))
  · simp only [mkdirP, log_info_errorRecs]
    rw [c3, w4]
  · simp only [mkdirP, log_info_errOut]
    rw [c4, w5]
  · intro q hq
    simp only [mkdirP, log_info_files_ne _ _ _ hq]
    rw [c6 q hq, w7 q hq]
    rfl
  · simp only [mkdirP, log_info_dirs]
    rw [c5, w6]
  · refine ⟨mkdirP ([STACK_DIR_NAME] ++ ["logs"])
      (log_info w ("Marked executable: " ++ pathStr w ([STACK_DIR_NAME] ++ ["install.sh"]))
        { (chmodList w (shGlob (writeEntries w (stackEntries body) s).2 [STACK_DIR_NAME])
            (writeEntries w (stackEntries body) s).2).2 with
          modes := setA
            (chmodList w (shGlob (writeEntries w (stackEntries body) s).2 [STACK_DIR_NAME])
              (writeEntries w (stackEntries body) s).2).2.modes
            ([STACK_DIR_NAME] ++ ["install.sh"])
            (getMode w
              (chmodList w (shGlob (writeEntries w (stackEntries body) s).2 [STACK_DIR_NAME])
                (writeEntries w (stackEntries body) s).2).2
              ([STACK_DIR_NAME] ++ ["install.sh"]) ||| execBits) }), ?_, ?_, ?_, ?_, ?_⟩
    · simp only [mkdirP, log_info_zips]
      rw [c2, w3]
      rfl
    · simp only [mkdirP, log_info_dirs]
      rw [c5, w6]
    · intro q hq
      simp only [mkdirP, log_info_files_ne _ _ _ hq]
      rw [c6 q hq, w7 q hq]
      rfl
    · intro hpres hL
      obtain ⟨a3, ha3⟩ := writeEntries_rewrite w (stackEntries body) s
        (fun e _ => h1 e.1) hpres hL hneL
      have hS4f : ∃ a,
          (chmodList w (shGlob (writeEntries w (stackEntries body) s).2
              [STACK_DIR_NAME])
            (writeEntries w (stackEntries body) s).2).2.files =
          setA s.files ACTIONS_LOG a := by
        rcases c7 with hc7 | ⟨a4, hc7⟩
        · exact ⟨a3, by rw [hc7, ha3]⟩
        · exact ⟨a4, by rw [hc7, ha3, setA_absorb]⟩
      exact exists_setA_step _ hS4f
    · exact exists_setA_log_info _ _ _ (exists_setA_log_info _ _ _
        (exists_setA_log_info _ _ _ (log_info_files_setA_base _ _ _ rfl)))
  · intro q hq
    simp only [mkdirP, log_info_modes]
    rcases hq with ⟨hff, hsh⟩ | rfl
    · have hqa : q ≠ ACTIONS_LOG := scriptSh_ne_actions hsh
      have hqi : q ≠ [STACK_DIR_NAME] ++ ["install.sh"] := scriptSh_ne_install hsh
      rw [lookupA_setA_ne _ hqi]
      have hqG : q ∈ shGlob (writeEntries w (stackEntries body) s).2
          [STACK_DIR_NAME] := by
        rw [shGlob_mem]
        refine ⟨?_, hsh⟩
        rw [w7 q hqa]
        exact hff
      exact c9 q hqG
    · exact exists_exec_mode _ _ _ _
  · intro q hq1 hq2
    simp only [mkdirP, log_info_modes]
    rw [lookupA_setA_ne _ hq2]
    have hqG : q ∉ shGlob (writeEntries w (stackEntries body) s).2
        [STACK_DIR_NAME] := by
      rw [shGlob_mem]
      rintro ⟨hm, hsh⟩
      by_cases hqa : q = ACTIONS_LOG
      · subst hqa
        exact absurd hsh (by decide)
      · rw [w7 q hqa] at hm
        exact hq1 ⟨hm, hsh⟩
    rw [c8 q hqG, w2]
  · simp only [mkdirP, log_info_actionsRecs]
    rw [hCt, hWt]
    simp only [List.append_assoc]
    refine ⟨_, rfl, ?_⟩
    intro r hr
    simp only [List.mem_append, List.mem_cons, List.not_mem_nil, or_false] at hr
    rcases hr with hr | hr | rfl | rfl | rfl | rfl | rfl
    · obtain ⟨td, e, he, hre⟩ := hWtP r hr
      exact ⟨td, _, hre, Or.inl ⟨e, he, rfl⟩⟩
    · obtain ⟨td, p', hp'G, hrp⟩ := hCtP r hr
      rw [shGlob_mem] at hp'G
      obtain ⟨hm, hsh⟩ := hp'G
      have hqa : p' ≠ ACTIONS_LOG := scriptSh_ne_actions hsh
      rw [w7 p' hqa] at hm
      exact ⟨td, _, hrp, Or.inr (Or.inl ⟨p', Or.inl ⟨hm, hsh⟩, rfl⟩)⟩
    · exact ⟨_, _, rfl,
        Or.inr (Or.inl ⟨[STACK_DIR_NAME] ++ ["install.sh"], Or.inr rfl, rfl⟩)⟩
    · exact ⟨_, _, rfl, Or.inr (Or.inr (Or.inl rfl))⟩
    · exact ⟨_, _, rfl, Or.inr (Or.inr (Or.inr (Or.inl rfl)))⟩
    · exact ⟨_, _, rfl, Or.inr (Or.inr (Or.inr (Or.inr (Or.inl rfl))))⟩
    · exact ⟨_, _, rfl, Or.inr (Or.inr (Or.inr (Or.inr (Or.inr rfl))))⟩

theorem mkdirP_files (d : FPath) (s : Gen) : (mkdirP d s).files = s.files := rfl

theorem mkdirP_modes (d : FPath) (s : Gen) : (mkdirP d s).modes = s.modes := rfl

theorem mkdirP_actionsRecs (d : FPath) (s : Gen) :
    (mkdirP d s).actionsRecs = s.actionsRecs := rfl

theorem mkdirP_errOut (d : FPath) (s : Gen) : (mkdirP d s).errOut = s.errOut := rfl

theorem mkdirP_tick (d : FPath) (s : Gen) : (mkdirP d s).tick = s.tick := rfl

theorem mkdirP_dirs (d : FPath) (s : Gen) : (mkdirP d s).dirs = mkDirs d s.dirs := rfl

theorem headerState_errorRecs (w : World) (s : Gen) :
    (headerState w s).errorRecs = s.errorRecs := by
  unfold headerState
  split <;> rfl

theorem headerState_errOut (w : World) (s : Gen) :
    (headerState w s).errOut = s.errOut := by
  unfold headerState
  split <;> rfl

theorem headerState_modes (w : World) (s : Gen) :
    (headerState w s).modes = s.modes := by
  unfold headerState
  split <;> rfl

theorem headerState_zips (w : World) (s : Gen) :
    (headerState w s).zips = s.zips := by
  unfold headerState
  split <;> rfl

theorem headerState_dirs (w : World) (s : Gen) :
    (headerState w s).dirs = s.dirs ∨
    (headerState w s).dirs = mkDirs [STACK_DIR_NAME] s.dirs := by
  unfold headerState
  split
  · exact Or.inl rfl
  · exact Or.inr rfl

theorem headerState_files_ne (w : World) (s : Gen) {q : FPath}
    (h : q ≠ ACTIONS_LOG) :
    lookupA (headerState w s).files q = lookupA s.files q := by
  unfold headerState
  split
  · rw [log_info_files_ne _ _ _ h, log_info_files_ne _ _ _ h]
  · rw [log_info_files_ne _ _ _ h]
    rw [show (mkdirP [STACK_DIR_NAME]
      (log_info w ("Generating stack version " ++ VERSION ++ " in " ++ w.rootStr)
        s)).files =
      (log_info w ("Generating stack version " ++ VERSION ++ " in " ++ w.rootStr)
        s).files from rfl]
    rw [log_info_files_ne _ _ _ h]

theorem headerState_files_log (w : World) (s : Gen) :
    lookupA (headerState w s).files ACTIONS_LOG ≠ none := by
  unfold headerState
  split <;>
  · rw [log_info_def]
    show lookupA (setA _ ACTIONS_LOG _) ACTIONS_LOG ≠ none
    rw [lookupA_setA_self]
    exact Option.some_ne_none _

theorem headerState_files_eq (w : World) (s : Gen) :
    ∃ a, (headerState w s).files = setA s.files ACTIONS_LOG a := by
  unfold headerState
  split
  · exact ⟨_, setA_absorb _ _ _ _⟩
  · exact ⟨_, setA_absorb _ _ _ _⟩

theorem headerState_actionsRecs (w : World) (s : Gen) :
    ∃ t, (headerState w s).actionsRecs = s.actionsRecs ++ t ∧ t ≠ [] ∧
      ∀ r ∈ t, ∃ (td : DateTime) (m' : String),
        r = infoLine td m' ∧ headerMsg w m' := by
  unfold headerState
  split
  · rw [log_info_actionsRecs, log_info_actionsRecs, List.append_assoc]
    refine ⟨_, rfl, by simp, ?_⟩
    intro r hr
    simp only [List.singleton_append, List.mem_cons, List.not_mem_nil,
      or_false] at hr
    rcases hr with rfl | rfl
    · exact ⟨_, _, rfl, Or.inl rfl⟩
    · exact ⟨_, _, rfl, Or.inr (Or.inl rfl)⟩
  · rw [log_info_actionsRecs, mkdirP_actionsRecs, mkdirP_tick,
      log_info_actionsRecs, List.append_assoc]
    refine ⟨_, rfl, by simp, ?_⟩
    intro r hr
    simp only [List.singleton_append, List.mem_cons, List.not_mem_nil,
      or_false] at hr
    rcases hr with rfl | rfl
    · exact ⟨_, _, rfl, Or.inl rfl⟩
    · exact ⟨_, _, rfl, Or.inr (Or.inr rfl)⟩

theorem main_eq (w : World) (body : Nat → String) (s : Gen) :
    main w body s =
      (match mainTry w body [STACK_DIR_NAME] (headerState w s) with
       | (.ok _, s) => ((.ok () : Res Unit), s)
       | (.exn m, s) =>
         (.exn m,
           log_error w ("Unhandled exception during stack generation:\n" ++
             w.tbOf m) s)) := rfl

theorem finalFile_congr (body : Nat → String) {s1 s2 : Gen} (q : FPath)
    (h : lookupA s2.files q = lookupA s1.files q) :
    finalFile body s2 q = finalFile body s1 q := by
  unfold finalFile
  cases lastWrite (stackEntries body) q with
  | none => exact h
  | some c => rfl

theorem tryInfoMsg_header (w : World) (body : Nat → String) (s : Gen)
    {m : String} (h : tryInfoMsg w body (headerState w s) m) :
    tryInfoMsg w body s m := by
  rcases h with h | ⟨q, hq, rfl⟩ | h | h | h | h
  · exact Or.inl h
  · refine Or.inr (Or.inl ⟨q, ?_, rfl⟩)
    rcases hq with ⟨hf, hsh⟩ | rfl
    · refine Or.inl ⟨?_, hsh⟩
      rwa [finalFile_congr body q
        (headerState_files_ne w s (scriptSh_ne_actions hsh))] at hf
    · exact Or.inr rfl
  · right; right; left
    exact h
  · right; right; right; left
    exact h
  · right; right; right; right; left
    exact h
  · right; right; right; right; right
    exact h

/-- Master bundle for a fully successful `main` run from an arbitrary
starting state. -/
theorem main_ok (w : World) (body : Nat → String) (s : Gen)
    (h1 : ∀ p, w.writeFails p = none) (h2 : ∀ p, w.chmodFails p = none)
    (h3 : w.zipFails = none) :
    (main w body s).1 = .ok () ∧
    (main w body s).2.errorRecs = s.errorRecs ∧
    (main w body s).2.errOut = s.errOut ∧
    (∀ q, q ≠ ACTIONS_LOG →
      lookupA (main w body s).2.files q = finalFile body s q) ∧
    (main w body s).2.dirs =
      mkDirs ([STACK_DIR_NAME] ++ ["logs"])
        ((stackEntries body).foldl (fun ds e => mkDirs e.1.dropLast ds)
          (headerState w s).dirs) ∧
    (∃ sz : Gen,
      (main w body s).2.zips =
        setA s.zips ZIP_PATH (zipEntries sz [STACK_DIR_NAME]) ∧
      sz.dirs = mkDirs ([STACK_DIR_NAME] ++ ["logs"])
        ((stackEntries body).foldl (fun ds e => mkDirs e.1.dropLast ds)
          (headerState w s).dirs) ∧
      (∀ q, q ≠ ACTIONS_LOG → lookupA sz.files q = finalFile body s q) ∧
      ((∀ e ∈ stackEntries body, lookupA s.files e.1 = some (transform e.2)) →
        ∃ a, sz.files = setA s.files ACTIONS_LOG a) ∧
      (∃ a, (main w body s).2.files = setA sz.files ACTIONS_LOG a)) ∧
    (∀ q, (finalFile body s q ≠ none ∧ isScriptSh q = true) ∨
        q = [STACK_DIR_NAME] ++ ["install.sh"] →
      ∃ m0, lookupA (main w body s).2.modes q = some (m0 ||| execBits)) ∧
    (∀ q, ¬(finalFile body s q ≠ none ∧ isScriptSh q = true) →
      q ≠ [STACK_DIR_NAME] ++ ["install.sh"] →
      lookupA (main w body s).2.modes q = lookupA s.modes q) ∧
    (∃ t, (main w body s).2.actionsRecs = s.actionsRecs ++ t ∧
      ∀ r ∈ t, ∃ (td : DateTime) (m' : String), r = infoLine td m' ∧
        (headerMsg w m' ∨ tryInfoMsg w body s m')) := by
  obtain ⟨m1, m2, m3, m4, m5, ⟨sz, z1, z2, z3, z4, z5⟩, m7, m8, t, ht, htP⟩ :=
    mainTry_ok w body (headerState w s) h1 h2 h3
  have hM : main w body s =
      (.ok (), (mainTry w body [STACK_DIR_NAME] (headerState w s)).2) := by
    rw [main_eq, pair_split _ m1]
  refine ⟨by rw [hM], ?_, ?_, ?_, ?_, ?_, ?_, ?_, ?_⟩
  · rw [hM]
    exact m2.trans (headerState_errorRecs w s)
  · rw [hM]
    exact m3.trans (headerState_errOut w s)
  · intro q hq
    rw [hM]
    exact (m4 q hq).trans (finalFile_congr body q (headerState_files_ne w s hq))
  · rw [hM]
    exact m5
  · refine ⟨sz, ?_, z2, ?_, ?_, ?_⟩
    · rw [hM]
      rw [show (Res.ok (),
          (mainTry w body [STACK_DIR_NAME] (headerState w s)).2).2 =
        (mainTry w body [STACK_DIR_NAME] (headerState w s)).2 from rfl]
      rw [z1, headerState_zips]
    · intro q hq
      exact (z3 q hq).trans (finalFile_congr body q (headerState_files_ne w s hq))
    · intro hpres
      obtain ⟨a0, ha0⟩ := headerState_files_eq w s
      have hpres' : ∀ e ∈ stackEntries body,
          lookupA (headerState w s).files e.1 = some (transform e.2) :=
        fun e he =>
          (headerState_files_ne w s (stackEntries_fst_ne_logs body e he)).trans
            (hpres e he)
      obtain ⟨a, ha⟩ := z4 hpres' (headerState_files_log w s)
      exact ⟨a, by rw [ha, ha0, setA_absorb]⟩
    · obtain ⟨a, ha⟩ := z5
      refine ⟨a, ?_⟩
      rw [hM]
      exact ha
  · intro q hq
    rw [hM]
    apply m7
    rcases hq with ⟨hf, hsh⟩ | rfl
    · refine Or.inl ⟨?_, hsh⟩
      rwa [finalFile_congr body q
        (headerState_files_ne w s (scriptSh_ne_actions hsh))]
    · exact Or.inr rfl
  · intro q hq1 hq2
    rw [hM]
    have hcond : ¬(finalFile body (headerState w s) q ≠ none ∧
        isScriptSh q = true) := by
      rintro ⟨hf, hsh⟩
      refine hq1 ⟨?_, hsh⟩
      rwa [finalFile_congr body q
        (headerState_files_ne w s (scriptSh_ne_actions hsh))] at hf
    rw [m8 q hcond hq2, headerState_modes]
  · obtain ⟨tH, hH, _, hHP⟩ := headerState_actionsRecs w s
    refine ⟨tH ++ t, ?_, ?_⟩
    · rw [hM]
      rw [show (Res.ok (),
          (mainTry w body [STACK_DIR_NAME] (headerState w s)).2).2 =
        (mainTry w body [STACK_DIR_NAME] (headerState w s)).2 from rfl]
      rw [ht, hH, List.append_assoc]
    · intro r hr
      rcases List.mem_append.mp hr with hr | hr
      · obtain ⟨td, m', hrm, hmsg⟩ := hHP r hr
        exact ⟨td, m', hrm, Or.inl hmsg⟩
      · obtain ⟨td, m', hrm, hmsg⟩ := htP r hr
        exact ⟨td, m', hrm, Or.inr (tryInfoMsg_header w body s hmsg)⟩

theorem stackEntries_fst_ne_errors (body : Nat → String) :
    ∀ e ∈ stackEntries body, e.1 ≠ ERRORS_LOG := by
  intro e he
  exact (stackPaths_ne_logs e.1
    (stackEntries_map_fst body ▸ List.mem_map_of_mem _ he)).2

theorem str_eq_empty_of_data {a : String} (h : a.data = []) : a = "" := by
  obtain ⟨da⟩ := a
  simp only [String.data] at h
  subst h
  rfl

theorem str_ext {a b : String} (h : a.data = b.data) : a = b := by
  obtain ⟨da⟩ := a
  obtain ⟨db⟩ := b
  simp only [String.data] at h
  subst h
  rfl

theorem str_append_assoc (a b c : String) : a ++ b ++ c = a ++ (b ++ c) := by
  apply str_ext
  simp [String.data_append]

theorem str_append_empty (a : String) : a ++ "" = a := by
  apply str_ext
  simp [String.data_append]

theorem str_append_ne_empty {a : String} (b : String) (h : a ≠ "") :
    a ++ b ≠ "" := by
  intro hc
  apply h
  apply str_eq_empty_of_data
  have h2 : a.data ++ b.data = [] := by
    have := congrArg String.data hc
    rwa [String.data_append] at this
  exact (List.append_eq_nil.mp h2).1

theorem infoLine_ne_empty (td : DateTime) (m : String) :
    infoLine td m ≠ "" := by
  intro hc
  have h2 : (timestamp_utc td ++ " [INFO] [setup_stack.py]: " ++ m ++ "\n").data
      = [] := congrArg String.data hc
  rw [String.data_append] at h2
  exact absurd h2 (by simp)

theorem getFileD_mkdirP (d : FPath) (s : Gen) (p : FPath) :
    getFileD (mkdirP d s) p = getFileD s p := rfl

theorem getFileD_log_info_actions (w : World) (m : String) (s : Gen) :
    getFileD (log_info w m s) ACTIONS_LOG =
      getFileD s ACTIONS_LOG ++ infoLine (w.clock s.tick) m := by
  rw [log_info_def]
  unfold getFileD
  show (lookupA (setA _ ACTIONS_LOG _) ACTIONS_LOG).getD "" = _
  rw [lookupA_setA_self]
  rfl

theorem getFileD_log_info_errors (w : World) (m : String) (s : Gen) :
    getFileD (log_info w m s) ERRORS_LOG = getFileD s ERRORS_LOG := by
  unfold getFileD
  rw [log_info_files_ne _ _ _ (by decide : ERRORS_LOG ≠ ACTIONS_LOG)]

theorem getFileD_log_error_errors (w : World) (m : String) (s : Gen) :
    getFileD (log_error w m s) ERRORS_LOG =
      getFileD s ERRORS_LOG ++ errorLine w (w.clock s.tick) m := by
  rw [log_error_def]
  unfold getFileD
  show (lookupA (setA _ ERRORS_LOG _) ERRORS_LOG).getD "" = _
  rw [lookupA_setA_self]
  rfl

theorem getFileD_log_error_actions (w : World) (m : String) (s : Gen) :
    getFileD (log_error w m s) ACTIONS_LOG = getFileD s ACTIONS_LOG := by
  unfold getFileD
  rw [log_error_files_ne _ _ _ (by decide : ACTIONS_LOG ≠ ERRORS_LOG)]

theorem grows_refl (s : Gen) : Grows s s :=
  ⟨⟨"", (str_append_empty _).symm⟩, ⟨"", (str_append_empty _).symm⟩⟩

theorem grows_trans {s1 s2 s3 : Gen} (h1 : Grows s1 s2) (h2 : Grows s2 s3) :
    Grows s1 s3 := by
  obtain ⟨⟨a1, ha1⟩, ⟨e1, he1⟩⟩ := h1
  obtain ⟨⟨a2, ha2⟩, ⟨e2, he2⟩⟩ := h2
  exact ⟨⟨a1 ++ a2, by rw [ha2, ha1, str_append_assoc]⟩,
    ⟨e1 ++ e2, by rw [he2, he1, str_append_assoc]⟩⟩

theorem grows_of_files {s s' : Gen}
    (hA : lookupA s'.files ACTIONS_LOG = lookupA s.files ACTIONS_LOG)
    (hE : lookupA s'.files ERRORS_LOG = lookupA s.files ERRORS_LOG) :
    Grows s s' := by
  refine ⟨⟨"", ?_⟩, ⟨"", ?_⟩⟩ <;> unfold getFileD
  · rw [hA, str_append_empty]
  · rw [hE, str_append_empty]

theorem grows_log_info (w : World) (m : String) (s : Gen) :
    Grows s (log_info w m s) :=
  ⟨⟨infoLine (w.clock s.tick) m, getFileD_log_info_actions w m s⟩,
   ⟨"", by rw [getFileD_log_info_errors, str_append_empty]⟩⟩

theorem grows_log_error (w : World) (m : String) (s : Gen) :
    Grows s (log_error w m s) :=
  ⟨⟨"", by rw [getFileD_log_error_actions, str_append_empty]⟩,
   ⟨errorLine w (w.clock s.tick) m, getFileD_log_error_errors w m s⟩⟩

theorem grows_mkdirP (d : FPath) (s : Gen) : Grows s (mkdirP d s) :=
  grows_of_files (by rw [mkdirP_files]) (by rw [mkdirP_files])

theorem grows_safe_write (w : World) (p : FPath) (c : String) (s : Gen)
    (hpa : p ≠ ACTIONS_LOG) (hpe : p ≠ ERRORS_LOG) :
    Grows s (safe_write w p c s).2 := by
  cases hwf : w.writeFails p with
  | none =>
    rw [safe_write_ok w p c s hwf]
    have g1 : Grows s
        { s with
          dirs := mkDirs p.dropLast s.dirs
          files := setA s.files p (transform c) } := by
      refine grows_of_files ?_ ?_
      · show lookupA (setA s.files p _) ACTIONS_LOG = _
        exact lookupA_setA_ne _ (fun hc => hpa hc.symm) _
      · show lookupA (setA s.files p _) ERRORS_LOG = _
        exact lookupA_setA_ne _ (fun hc => hpe hc.symm) _
    exact grows_trans g1 (grows_log_info _ _ _)
  | some m =>
    rw [safe_write_fail w p c s m hwf]
    have g1 : Grows s { s with dirs := mkDirs p.dropLast s.dirs } :=
      grows_of_files rfl rfl
    exact grows_trans g1 (grows_log_error _ _ _)

theorem grows_make_executable (w : World) (p : FPath) (s : Gen) :
    Grows s (make_executable w p s).2 := by
  cases hwf : w.chmodFails p with
  | none =>
    rw [make_executable_ok w p s hwf]
    have g1 : Grows s
        { s with modes := setA s.modes p (getMode w s p ||| execBits) } :=
      grows_of_files rfl rfl
    exact grows_trans g1 (grows_log_info _ _ _)
  | some m =>
    rw [make_executable_fail w p s m hwf]
    exact grows_log_error _ _ _

theorem grows_create_zip (w : World) (root : FPath) (s : Gen) :
    Grows s (create_zip w root s).2 := by
  cases hwf : w.zipFails with
  | none =>
    rw [create_zip_ok w root s hwf]
    have g1 : Grows s { s with
        zips := setA s.zips [root.getLastD "" ++ ".zip"] (zipEntries s root) } :=
      grows_of_files rfl rfl
    exact grows_trans g1 (grows_log_info _ _ _)
  | some m =>
    rw [create_zip_fail w root s m hwf]
    exact grows_log_error _ _ _

theorem grows_bindR {α β : Type} {x : Res α × Gen} {f : α → Gen → Res β × Gen}
    {s : Gen} (hx : Grows s x.2) (hf : ∀ a, Grows x.2 (f a x.2).2) :
    Grows s (bindR x f).2 := by
  obtain ⟨r, t⟩ := x
  cases r with
  | ok a => exact grows_trans hx (hf a)
  | exn m => exact hx

theorem grows_writeEntries (w : World) (entries : List (FPath × String)) (s : Gen)
    (hne : ∀ e ∈ entries, e.1 ≠ ACTIONS_LOG ∧ e.1 ≠ ERRORS_LOG) :
    Grows s (writeEntries w entries s).2 := by
  induction entries generalizing s with
  | nil => exact grows_refl s
  | cons e rest ih =>
    obtain ⟨p, c⟩ := e
    rw [writeEntries]
    refine grows_bindR ?_ ?_
    · exact grows_safe_write w p c s (hne (p, c) (List.mem_cons_self _ _)).1
        (hne (p, c) (List.mem_cons_self _ _)).2
    · intro a
      exact ih _ (fun e he => hne e (List.mem_cons_of_mem _ he))

theorem grows_chmodList (w : World) (ps : List FPath) (s : Gen) :
    Grows s (chmodList w ps s).2 := by
  induction ps generalizing s with
  | nil => exact grows_refl s
  | cons p rest ih =>
    rw [chmodList]
    exact grows_bindR (grows_make_executable w p s) (fun a => ih _)

theorem grows_mainTry (w : World) (body : Nat → String) (s : Gen) :
    Grows s (mainTry w body [STACK_DIR_NAME] s).2 := by
  unfold mainTry
  rw [create_stack_files_eq]
  refine grows_bindR ?_ ?_
  · exact grows_writeEntries w (stackEntries body) s
      (fun e he => ⟨stackEntries_fst_ne_logs body e he,
        stackEntries_fst_ne_errors body e he⟩)
  · intro a
    refine grows_bindR (grows_chmodList _ _ _) ?_
    intro a2
    refine grows_bindR (grows_make_executable _ _ _) ?_
    intro a3
    refine grows_trans (grows_mkdirP ([STACK_DIR_NAME] ++ ["logs"]) _) ?_
    refine grows_bindR (grows_create_zip _ _ _) ?_
    intro zp
    refine grows_trans
      (grows_log_info w ("Stack files generation complete for " ++ VERSION ++ ".") _) ?_
    refine grows_trans
      (grows_log_info w ("Root directory: " ++ pathStr w [STACK_DIR_NAME]) _) ?_
    refine grows_trans
      (grows_log_info w ("ZIP archive: " ++ pathStr w zp) _) ?_
    exact grows_of_files rfl rfl

theorem headerState_grows (w : World) (s : Gen) :
    ∃ t, t ≠ "" ∧
      getFileD (headerState w s) ACTIONS_LOG = getFileD s ACTIONS_LOG ++ t := by
  unfold headerState
  split
  · rw [getFileD_log_info_actions, getFileD_log_info_actions, str_append_assoc]
    exact ⟨_, str_append_ne_empty _ (infoLine_ne_empty _ _), rfl⟩
  · rw [getFileD_log_info_actions, getFileD_mkdirP, getFileD_log_info_actions,
      str_append_assoc]
    exact ⟨_, str_append_ne_empty _ (infoLine_ne_empty _ _), rfl⟩

theorem headerState_grows_errors (w : World) (s : Gen) :
    getFileD (headerState w s) ERRORS_LOG = getFileD s ERRORS_LOG := by
  unfold headerState
  split
  · rw [getFileD_log_info_errors, getFileD_log_info_errors]
  · rw [getFileD_log_info_errors, getFileD_mkdirP, getFileD_log_info_errors]

/-- Over a whole `main` run the actions log strictly grows and the errors log
only grows. -/
theorem main_grows (w : World) (body : Nat → String) (s : Gen) :
    (∃ t, t ≠ "" ∧
      getFileD (main w body s).2 ACTIONS_LOG = getFileD s ACTIONS_LOG ++ t) ∧
    (∃ t, getFileD (main w body s).2 ERRORS_LOG =
      getFileD s ERRORS_LOG ++ t) := by
  obtain ⟨tH, htHne, htH⟩ := headerState_grows w s
  have gT : Grows (headerState w s)
      (mainTry w body [STACK_DIR_NAME] (headerState w s)).2 :=
    grows_mainTry w body (headerState w s)
  have hsplit : (main w body s).2 =
        (mainTry w body [STACK_DIR_NAME] (headerState w s)).2 ∨
      ∃ m, (main w body s).2 =
        log_error w ("Unhandled exception during stack generation:\n" ++ w.tbOf m)
          (mainTry w body [STACK_DIR_NAME] (headerState w s)).2 := by
    rw [main_eq]
    cases hmt : mainTry w body [STACK_DIR_NAME] (headerState w s) with
    | mk r t =>
      cases r with
      | ok a => exact Or.inl rfl
      | exn m => exact Or.inr ⟨m, rfl⟩
  have gM : Grows (headerState w s) (main w body s).2 := by
    rcases hsplit with hM | ⟨m, hM⟩
    · rw [hM]
      exact gT
    · rw [hM]
      exact grows_trans gT (grows_log_error _ _ _)
  obtain ⟨⟨tA, hA⟩, ⟨tE, hE⟩⟩ := gM
  constructor
  · refine ⟨tH ++ tA, str_append_ne_empty _ htHne, ?_⟩
    rw [hA, htH, str_append_assoc]
  · refine ⟨tE, ?_⟩
    rw [hE, headerState_grows_errors]

theorem mem_addDir_of_mem {x : FPath} {ds : List FPath} (d : FPath)
    (h : x ∈ ds) : x ∈ addDir ds d := by
  unfold addDir
  split
  · exact h
  · exact List.mem_append_left _ h

theorem mem_addDir_self (ds : List FPath) (d : FPath) : d ∈ addDir ds d := by
  unfold addDir
  split
  · assumption
  · exact List.mem_append_right _ (List.mem_singleton.mpr rfl)

theorem mem_foldl_addDir_of_mem {x : FPath} :
    ∀ (l : List FPath) (ds : List FPath), x ∈ ds → x ∈ l.foldl addDir ds := by
  intro l
  induction l with
  | nil => exact fun ds h => h
  | cons d rest ih =>
    intro ds h
    exact ih _ (mem_addDir_of_mem d h)

theorem mem_foldl_addDir_of_mem_list {x : FPath} :
    ∀ (l : List FPath) (ds : List FPath), x ∈ l → x ∈ l.foldl addDir ds := by
  intro l
  induction l with
  | nil => intro ds h; cases h
  | cons d rest ih =>
    intro ds h
    rcases List.mem_cons.mp h with rfl | h
    · rw [List.foldl_cons]
      exact mem_foldl_addDir_of_mem _ _ (mem_addDir_self ds x)
    · exact ih _ h

theorem mem_mkDirs_of_mem {x : FPath} (d : FPath) {ds : List FPath}
    (h : x ∈ ds) : x ∈ mkDirs d ds :=
  mem_foldl_addDir_of_mem _ _ h

theorem ancestors_subset_mkDirs {x : FPath} {d : FPath} (ds : List FPath)
    (h : x ∈ ancestors d) : x ∈ mkDirs d ds :=
  mem_foldl_addDir_of_mem_list _ _ h

theorem addDir_absorb {ds : List FPath} {d : FPath} (h : d ∈ ds) :
    addDir ds d = ds := if_pos h

theorem foldl_addDir_absorb :
    ∀ (l : List FPath) (ds : List FPath), (∀ x ∈ l, x ∈ ds) →
      l.foldl addDir ds = ds := by
  intro l
  induction l with
  | nil => exact fun ds _ => rfl
  | cons d rest ih =>
    intro ds h
    rw [List.foldl_cons, addDir_absorb (h d (List.mem_cons_self _ _))]
    exact ih _ (fun x hx => h x (List.mem_cons_of_mem _ hx))

theorem mkDirs_absorb {d : FPath} {ds : List FPath}
    (h : ∀ x ∈ ancestors d, x ∈ ds) : mkDirs d ds = ds :=
  foldl_addDir_absorb _ _ h

theorem mem_foldl_mkDirs_of_mem {x : FPath} :
    ∀ (l : List (FPath × String)) (ds : List FPath), x ∈ ds →
      x ∈ l.foldl (fun ds e => mkDirs e.1.dropLast ds) ds := by
  intro l
  induction l with
  | nil => exact fun ds h => h
  | cons e rest ih =>
    intro ds h
    exact ih _ (mem_mkDirs_of_mem _ h)

theorem mem_foldl_mkDirs_of_anc {x p : FPath} :
    ∀ (l : List (FPath × String)) (ds : List FPath), p ∈ l.map (·.1) →
      x ∈ ancestors p.dropLast →
      x ∈ l.foldl (fun ds e => mkDirs e.1.dropLast ds) ds := by
  intro l
  induction l with
  | nil => intro ds h; cases h
  | cons e rest ih =>
    intro ds h hx
    rcases List.mem_cons.mp h with he | h
    · rw [List.foldl_cons]
      refine mem_foldl_mkDirs_of_mem _ _ ?_
      refine ancestors_subset_mkDirs _ ?_
      have h1 : e.1 = p := he.symm
      rw [h1]
      exact hx
    · exact ih _ h hx

theorem foldl_mkDirs_absorb :
    ∀ (l : List (FPath × String)) (ds : List FPath),
      (∀ e ∈ l, ∀ x ∈ ancestors e.1.dropLast, x ∈ ds) →
      l.foldl (fun ds e => mkDirs e.1.dropLast ds) ds = ds := by
  intro l
  induction l with
  | nil => exact fun ds _ => rfl
  | cons e rest ih =>
    intro ds h
    rw [List.foldl_cons, mkDirs_absorb (h e (List.mem_cons_self _ _))]
    exact ih _ (fun e' he' => h e' (List.mem_cons_of_mem _ he'))

theorem stackPaths_ancestors :
    ∀ p ∈ stackPathsList, ∀ x ∈ ancestors p.dropLast,
      x = [STACK_DIR_NAME] ∨ x = [STACK_DIR_NAME, "scripts"] := by decide

theorem stackPaths_nodup : stackPathsList.Nodup := by decide

theorem common_mem_stackPaths :
    ([STACK_DIR_NAME, "scripts", "common.sh"] : FPath) ∈ stackPathsList ∧
    ([STACK_DIR_NAME, "scripts"] : FPath) ∈
      ancestors (List.dropLast [STACK_DIR_NAME, "scripts", "common.sh"]) := by
  decide

theorem ancestors_root_logs :
    ([STACK_DIR_NAME] : FPath) ∈ ancestors ([STACK_DIR_NAME] ++ ["logs"]) ∧
    ([STACK_DIR_NAME, "logs"] : FPath) ∈
      ancestors ([STACK_DIR_NAME] ++ ["logs"]) ∧
    ancestors ([STACK_DIR_NAME] : FPath) = [[STACK_DIR_NAME]] := by decide

theorem lastWrite_not_mem {q : FPath} :
    ∀ {l : List (FPath × String)}, q ∉ l.map (·.1) → lastWrite l q = none := by
  intro l
  induction l with
  | nil => intro _; rfl
  | cons e rest ih =>
    intro h
    obtain ⟨p, c⟩ := e
    have hq : q ∉ rest.map (·.1) := fun hc => h (List.mem_cons_of_mem _ hc)
    have hpq : ¬ p = q := fun hc =>
      h (List.mem_cons.mpr (Or.inl hc.symm))
    simp only [lastWrite, ih hq, if_neg hpq]

theorem lastWrite_nodup :
    ∀ {l : List (FPath × String)}, (l.map (·.1)).Nodup →
      ∀ e ∈ l, lastWrite l e.1 = some e.2 := by
  intro l
  induction l with
  | nil => intro _ e he; cases he
  | cons e0 rest ih =>
    intro hnd e he
    obtain ⟨p, c⟩ := e0
    rw [List.map_cons, List.nodup_cons] at hnd
    rcases List.mem_cons.mp he with rfl | he
    · rw [lastWrite, lastWrite_not_mem hnd.1]
      simp
    · simp only [lastWrite, ih hnd.2 e he]

theorem flatMap_congr_mem {α β : Type} {l : List α} {f g : α → List β}
    (h : ∀ a ∈ l, f a = g a) : l.flatMap f = l.flatMap g := by
  induction l with
  | nil => rfl
  | cons a rest ih =>
    rw [List.flatMap_cons, List.flatMap_cons, h a (List.mem_cons_self _ _),
      ih (fun a ha => h a (List.mem_cons_of_mem _ ha))]

theorem nil_not_mem_walkDirs {s : Gen} {root : FPath} (hroot : root ≠ []) :
    ([] : FPath) ∉ walkDirs s root := by
  unfold walkDirs
  intro h
  rcases List.mem_cons.mp h with h | h
  · exact hroot h.symm
  · obtain ⟨-, hpfx⟩ := List.mem_filter.mp h
    rw [Bool.and_eq_true] at hpfx
    cases root with
    | nil => exact hroot rfl
    | cons a as => exact absurd hpfx.1 (by simp [pfx])

theorem filesWithParent_setA (fs : List (FPath × String)) (d p : FPath)
    (a : String) (h : p.dropLast ≠ d) :
    filesWithParent (setA fs p a) d = filesWithParent fs d :=
  filter_setA fs _ p a (fun u => by simp [h])

theorem stackEntries_present (w : World) (body : Nat → String)
    (h1 : ∀ p, w.writeFails p = none) (h2 : ∀ p, w.chmodFails p = none)
    (h3 : w.zipFails = none) :
    ∀ e ∈ stackEntries body,
      lookupA (main w body emptyGen).2.files e.1 = some (transform e.2) := by
  intro e he
  obtain ⟨-, -, -, o1files, -⟩ := main_ok w body emptyGen h1 h2 h3
  rw [o1files e.1 (stackEntries_fst_ne_logs body e he)]
  unfold finalFile
  rw [lastWrite_nodup (by rw [stackEntries_map_fst]; exact stackPaths_nodup) e he]

theorem ancestors_logs_char :
    ∀ x ∈ ancestors (([STACK_DIR_NAME] ++ ["logs"] : FPath)),
      x = [STACK_DIR_NAME] ∨ x = [STACK_DIR_NAME, "logs"] := by decide

theorem zipEntries_congr (s1 s2 : Gen) (root : FPath) (hroot : root ≠ [])
    (hd : s2.dirs = s1.dirs) (a : String)
    (hf : s2.files = setA s1.files ACTIONS_LOG a) :
    zipEntries s2 root = zipEntries s1 root := by
  unfold zipEntries walkDirs
  rw [hd, hf]
  refine flatMap_congr_mem ?_
  intro d hdm
  have hdnil : d ≠ [] := by
    rintro rfl
    exact nil_not_mem_walkDirs hroot (by unfold walkDirs; rw [← hd] at hdm; exact hdm)
  exact filesWithParent_setA _ _ _ _ (by
    show List.dropLast ACTIONS_LOG ≠ d
    simpa using fun hc => hdnil hc.symm)

theorem lastWrite_some_mem {l : List (FPath × String)} {q : FPath} {c : String}
    (h : lastWrite l q = some c) : q ∈ l.map (·.1) := by
  by_contra hmem
  rw [lastWrite_not_mem hmem] at h
  cases h

theorem lastWrite_is_some :
    ∀ (l : List (FPath × String)) (q : FPath), q ∈ l.map (·.1) →
      lastWrite l q ≠ none := by
  intro l
  induction l with
  | nil => intro q hq; cases hq
  | cons e rest ih =>
    intro q hq
    obtain ⟨p, c⟩ := e
    rcases List.mem_cons.mp hq with hqp | hq
    · show (match lastWrite rest q with
        | some c' => some c'
        | none => if p = q then some c else none) ≠ none
      cases lastWrite rest q with
      | some c' => simp
      | none =>
        simp only [if_pos hqp.symm]
        simp
    · show (match lastWrite rest q with
        | some c' => some c'
        | none => if p = q then some c else none) ≠ none
      cases hlw : lastWrite rest q with
      | some c' => simp
      | none => exact absurd hlw (ih q hq)

theorem execBits_testBit (m0 : Nat) :
    (m0 ||| execBits).testBit 0 = true ∧ (m0 ||| execBits).testBit 3 = true ∧
    (m0 ||| execBits).testBit 6 = true ∧
    ∀ i, i ≠ 0 → i ≠ 3 → i ≠ 6 →
      (m0 ||| execBits).testBit i = m0.testBit i := by
  refine ⟨?_, ?_, ?_, ?_⟩
  · rw [Nat.testBit_or, (by decide : execBits.testBit 0 = true), Bool.or_true]
  · rw [Nat.testBit_or, (by decide : execBits.testBit 3 = true), Bool.or_true]
  · rw [Nat.testBit_or, (by decide : execBits.testBit 6 = true), Bool.or_true]
  · intro i h0 h3 h6
    rw [Nat.testBit_or]
    have hf : execBits.testBit i = false := by
      rcases Nat.lt_or_ge i 7 with hlt | hge
      · interval_cases i
        · exact absurd rfl h0
        · decide
        · decide
        · exact absurd rfl h3
        · decide
        · decide
        · exact absurd rfl h6
      · have hlt2 : execBits < 2 ^ i :=
          lt_of_lt_of_le (by decide : execBits < 2 ^ 7)
            (Nat.pow_le_pow_right (by decide) hge)
        exact Nat.testBit_lt_two_pow hlt2
    rw [hf, Bool.or_false]

theorem stackPaths_not_logsdir :
    ∀ p ∈ stackPathsList, p.dropLast ≠ [STACK_DIR_NAME, "logs"] := by decide

theorem stackPaths_scripts_sh :
    ∀ q ∈ stackPathsList, q.dropLast = [STACK_DIR_NAME, "scripts"] →
      isScriptSh q = true := by decide

theorem no_nl_append {a b : String} (ha : '\n' ∉ a.data)
    (hb : '\n' ∉ b.data) : '\n' ∉ (a ++ b).data := by
  rw [String.data_append]
  intro hc
  rcases List.mem_append.mp hc with h | h
  · exact ha h
  · exact hb h

theorem digitChar_ne_newline (n : Nat) : Nat.digitChar n ≠ '\n' := by
  rcases Nat.lt_or_ge n 16 with h | h
  · interval_cases n <;> decide
  · unfold Nat.digitChar
    repeat rw [if_neg (by omega)]
    decide

theorem toDigitsCore_no_newline (b : Nat) :
    ∀ (f n : Nat) (ds : List Char), '\n' ∉ ds →
      '\n' ∉ Nat.toDigitsCore b f n ds := by
  intro f
  induction f with
  | zero =>
    intro n ds h
    exact h
  | succ f ih =>
    intro n ds h
    have hd : '\n' ∉ (Nat.digitChar (n % b) :: ds) := by
      intro hc
      rcases List.mem_cons.mp hc with hc | hc
      · exact digitChar_ne_newline _ hc.symm
      · exact h hc
    show '\n' ∉ (if n / b = 0 then Nat.digitChar (n % b) :: ds
      else Nat.toDigitsCore b f (n / b) (Nat.digitChar (n % b) :: ds))
    split
    · exact hd
    · exact ih _ _ hd

theorem natToString_no_newline (n : Nat) : '\n' ∉ (toString n).data := by
  show '\n' ∉ Nat.toDigitsCore 10 (n + 1) n []
  exact toDigitsCore_no_newline 10 (n + 1) n [] (by simp)

theorem pad2_no_newline (n : Nat) : '\n' ∉ (pad2 n).data := by
  unfold pad2
  split
  · exact no_nl_append (by decide) (natToString_no_newline n)
  · exact natToString_no_newline n

theorem timestamp_no_newline (t : DateTime) :
    '\n' ∉ (timestamp_utc t).data := by
  unfold timestamp_utc
  refine no_nl_append ?_ (by decide)
  refine no_nl_append ?_ (pad2_no_newline _)
  refine no_nl_append ?_ (by decide)
  refine no_nl_append ?_ (pad2_no_newline _)
  refine no_nl_append ?_ (by decide)
  refine no_nl_append ?_ (pad2_no_newline _)
  refine no_nl_append ?_ (by decide)
  refine no_nl_append ?_ (pad2_no_newline _)
  refine no_nl_append ?_ (by decide)
  refine no_nl_append ?_ (pad2_no_newline _)
  refine no_nl_append ?_ (by decide)
  exact natToString_no_newline _

theorem pathStr_no_newline (w : World) (p : FPath)
    (hroot : '\n' ∉ w.rootStr.data) (hp : ∀ c ∈ p, '\n' ∉ c.data) :
    '\n' ∉ (pathStr w p).data := by
  unfold pathStr
  refine no_nl_append hroot ?_
  have hgen : ∀ (l : List String) (acc : String), '\n' ∉ acc.data →
      (∀ c ∈ l, '\n' ∉ c.data) →
      '\n' ∉ (l.foldl (fun acc c => acc ++ "/" ++ c) acc).data := by
    intro l
    induction l with
    | nil =>
      intro acc ha _
      exact ha
    | cons c cs ih =>
      intro acc ha hl
      rw [List.foldl_cons]
      exact ih _
        (no_nl_append (no_nl_append ha (by decide))
          (hl c (List.mem_cons_self _ _)))
        (fun c' hc' => hl c' (List.mem_cons_of_mem _ hc'))
  exact hgen p "" (by simp) hp

theorem oneLine_infoLine (td : DateTime) (m : String) (hm : '\n' ∉ m.data) :
    oneLine (infoLine td m) := by
  have hA : '\n' ∉ (timestamp_utc td ++ " [INFO] [setup_stack.py]: " ++
      m).data :=
    no_nl_append (no_nl_append (timestamp_no_newline td) (by decide)) hm
  unfold oneLine infoLine
  constructor
  · rw [String.data_append, List.count_append, List.count_eq_zero.mpr hA]
    decide
  · rw [String.data_append, List.getLast?_append_of_ne_nil _ (by decide)]
    decide

theorem oneLine_errorLine (w : World) (td : DateTime) (m : String)
    (hm : '\n' ∉ m.data) (hroot : '\n' ∉ w.rootStr.data) :
    oneLine (errorLine w td m) := by
  have hA : '\n' ∉ (timestamp_utc td ++ " [ERROR] [setup_stack.py]: " ++ m ++
      " (see " ++ pathStr w ERRORS_LOG).data :=
    no_nl_append (no_nl_append (no_nl_append (no_nl_append
      (timestamp_no_newline td) (by decide)) hm) (by decide))
      (pathStr_no_newline w _ hroot (by decide))
  unfold oneLine errorLine
  constructor
  · rw [String.data_append, List.count_append, List.count_eq_zero.mpr hA]
    decide
  · rw [String.data_append, List.getLast?_append_of_ne_nil _ (by decide)]
    decide

theorem stackPaths_comp_no_newline :
    ∀ p ∈ stackPathsList, ∀ c ∈ p, '\n' ∉ c.data := by decide

theorem headerMsg_no_newline {w : World} (hroot : '\n' ∉ w.rootStr.data)
    {m : String} (h : headerMsg w m) : '\n' ∉ m.data := by
  rcases h with rfl | rfl | rfl
  · exact no_nl_append (no_nl_append (no_nl_append (by decide) (by decide))
      (by decide)) hroot
  · exact no_nl_append
      (no_nl_append (by decide) (pathStr_no_newline w _ hroot (by decide)))
      (by decide)
  · exact no_nl_append (by decide) (pathStr_no_newline w _ hroot (by decide))

theorem finalFile_empty_mem {body : Nat → String} {q : FPath}
    (h : finalFile body emptyGen q ≠ none) : q ∈ stackPathsList := by
  unfold finalFile at h
  revert h
  cases hlw : lastWrite (stackEntries body) q with
  | some c =>
    intro _
    have hm := lastWrite_some_mem hlw
    rwa [stackEntries_map_fst] at hm
  | none =>
    intro h
    exact absurd rfl h

theorem tryInfoMsg_no_newline {w : World} {body : Nat → String}
    (hroot : '\n' ∉ w.rootStr.data) {m : String}
    (h : tryInfoMsg w body emptyGen m) : '\n' ∉ m.data := by
  rcases h with ⟨e, he, rfl⟩ | ⟨q, hq, rfl⟩ | rfl | rfl | rfl | rfl
  · have hp : e.1 ∈ stackPathsList := by
      rw [← stackEntries_map_fst body]
      exact List.mem_map_of_mem _ he
    exact no_nl_append (by decide)
      (pathStr_no_newline w _ hroot (stackPaths_comp_no_newline _ hp))
  · have hcomp : ∀ c ∈ q, '\n' ∉ c.data := by
      rcases hq with ⟨hf, -⟩ | rfl
      · exact stackPaths_comp_no_newline _ (finalFile_empty_mem hf)
      · decide
    exact no_nl_append (by decide) (pathStr_no_newline w _ hroot hcomp)
  · exact no_nl_append (by decide) (pathStr_no_newline w _ hroot (by decide))
  · decide
  · exact no_nl_append (by decide) (pathStr_no_newline w _ hroot (by decide))
  · exact no_nl_append (by decide) (pathStr_no_newline w _ hroot (by decide))

theorem mem_walkDirs {s : Gen} {root d : FPath} :
    d ∈ walkDirs s root ↔
      d = root ∨ (d ∈ s.dirs ∧ pfx root d = true ∧ d ≠ root) := by
  unfold walkDirs
  simp only [List.mem_cons, List.mem_filter, Bool.and_eq_true,
    decide_eq_true_eq]

theorem pfx_length {α : Type} [DecidableEq α] {a b : List α}
    (h : pfx a b = true) : a.length ≤ b.length := by
  obtain ⟨t, rfl⟩ := pfx_iff.mp h
  simp

theorem zipEntries_mem_below {s : Gen} {root : FPath} (hroot : root ≠ [])
    {e : FPath × String} (he : e ∈ zipEntries s root) :
    e ∈ s.files ∧ pfx root e.1 = true ∧ root.length < e.1.length := by
  obtain ⟨d, hd, hpd⟩ := List.mem_flatMap.mp he
  obtain ⟨hmem, hpar'⟩ := List.mem_filter.mp hpd
  have hpar : e.1.dropLast = d := of_decide_eq_true hpar'
  have hpne : e.1 ≠ [] := by
    rintro hnil
    rw [hnil] at hpar
    rw [show (List.dropLast ([] : FPath)) = ([] : FPath) from rfl] at hpar
    rw [← hpar] at hd
    exact nil_not_mem_walkDirs hroot hd
  have hsplit : e.1 = d ++ [e.1.getLast hpne] := by
    rw [← hpar]
    exact (List.dropLast_append_getLast hpne).symm
  have hdlen : root.length ≤ d.length := by
    rcases mem_walkDirs.mp hd with rfl | ⟨-, hpfx, -⟩
    · exact le_refl _
    · exact pfx_length hpfx
  refine ⟨hmem, ?_, ?_⟩
  · rcases mem_walkDirs.mp hd with rfl | ⟨-, hpfx, -⟩
    · rw [hsplit]
      exact pfx_append _ _
    · rw [hsplit]
      exact pfx_trans hpfx (pfx_append _ _)
  · rw [hsplit, List.length_append]
    simp only [List.length_singleton]
    omega

/-- C6: `log_info` appends the line
`<ts> [INFO] [setup_stack.py]: <message>\n` (with `ts` the UTC wall-clock
reading formatted `YYYY-MM-DDTHH:MM:SSZ`) to the actions log and echoes the
identical line to standard output; `log_error` appends the same-shaped ERROR
line suffixed with a pointer to the errors log to the errors log and echoes
it to standard error; both create the log's missing parent directories. -/
theorem C6_log_ops (w : World) (m : String) (s : Gen) :
    ((log_info w m s).actionsRecs = s.actionsRecs ++
      [timestamp_utc (w.clock s.tick) ++ " [INFO] [setup_stack.py]: " ++ m ++
        "\n"] ∧
     (log_info w m s).out = s.out ++
      [timestamp_utc (w.clock s.tick) ++ " [INFO] [setup_stack.py]: " ++ m ++
        "\n"] ∧
     getFileD (log_info w m s) ACTIONS_LOG = getFileD s ACTIONS_LOG ++
      (timestamp_utc (w.clock s.tick) ++ " [INFO] [setup_stack.py]: " ++ m ++
        "\n") ∧
     (log_info w m s).dirs = mkDirs ACTIONS_LOG.dropLast s.dirs ∧
     (log_info w m s).errorRecs = s.errorRecs ∧
     (log_info w m s).errOut = s.errOut) ∧
    ((log_error w m s).errorRecs = s.errorRecs ++
      [timestamp_utc (w.clock s.tick) ++ " [ERROR] [setup_stack.py]: " ++ m ++
        " (see " ++ pathStr w ERRORS_LOG ++ " for details)\n"] ∧
     (log_error w m s).errOut = s.errOut ++
      [timestamp_utc (w.clock s.tick) ++ " [ERROR] [setup_stack.py]: " ++ m ++
        " (see " ++ pathStr w ERRORS_LOG ++ " for details)\n"] ∧
     getFileD (log_error w m s) ERRORS_LOG = getFileD s ERRORS_LOG ++
      (timestamp_utc (w.clock s.tick) ++ " [ERROR] [setup_stack.py]: " ++ m ++
        " (see " ++ pathStr w ERRORS_LOG ++ " for details)\n") ∧
     (log_error w m s).dirs = mkDirs ERRORS_LOG.dropLast s.dirs ∧
     (log_error w m s).actionsRecs = s.actionsRecs ∧
     (log_error w m s).out = s.out) :=
  ⟨⟨rfl, rfl, getFileD_log_info_actions w m s, rfl, rfl, rfl⟩,
   ⟨rfl, rfl, getFileD_log_error_errors w m s, rfl, rfl, rfl⟩⟩

/-- C8: a successful `make_executable` sets the file's mode to the old mode
with the owner, group and other execute bits added, leaves every other bit
of that mode as it was, and changes no other file's mode. -/
theorem C8_make_executable (w : World) (p : FPath) (s : Gen)
    (h : w.chmodFails p = none) :
    lookupA (make_executable w p s).2.modes p =
      some (getMode w s p ||| execBits) ∧
    (getMode w s p ||| execBits).testBit 0 = true ∧
    (getMode w s p ||| execBits).testBit 3 = true ∧
    (getMode w s p ||| execBits).testBit 6 = true ∧
    (∀ i, i ≠ 0 → i ≠ 3 → i ≠ 6 →
      (getMode w s p ||| execBits).testBit i = (getMode w s p).testBit i) ∧
    (∀ q, q ≠ p →
      lookupA (make_executable w p s).2.modes q = lookupA s.modes q) := by
  refine ⟨?_, (execBits_testBit _).1, (execBits_testBit _).2.1,
    (execBits_testBit _).2.2.1, (execBits_testBit _).2.2.2, ?_⟩
  · rw [make_executable_ok w p s h]
    show lookupA (setA s.modes p (getMode w s p ||| execBits)) p = _
    exact lookupA_setA_self _ _ _
  · intro q hq
    rw [make_executable_ok w p s h]
    show lookupA (setA s.modes p (getMode w s p ||| execBits)) q = _
    exact lookupA_setA_ne _ hq _

theorem C8_make_executable_witness :
    okWorld.chmodFails ["a"] = none ∧
    (lookupA (make_executable okWorld ["a"] emptyGen).2.modes ["a"] =
      some (getMode okWorld emptyGen ["a"] ||| execBits) ∧
    (getMode okWorld emptyGen ["a"] ||| execBits).testBit 0 = true ∧
    (getMode okWorld emptyGen ["a"] ||| execBits).testBit 3 = true ∧
    (getMode okWorld emptyGen ["a"] ||| execBits).testBit 6 = true ∧
    (∀ i, i ≠ 0 → i ≠ 3 → i ≠ 6 →
      (getMode okWorld emptyGen ["a"] ||| execBits).testBit i =
        (getMode okWorld emptyGen ["a"]).testBit i) ∧
    (∀ q, q ≠ ["a"] →
      lookupA (make_executable okWorld ["a"] emptyGen).2.modes q =
        lookupA emptyGen.modes q)) :=
  ⟨rfl, C8_make_executable okWorld ["a"] emptyGen rfl⟩

/-- C9: the text transformation `safe_write` applies — dedent followed by
stripping leading newline characters — is idempotent. -/
theorem C9_transform_idempotent (s : String) :
    transform (transform s) = transform s :=
  congrArg String.mk (transformChars_idem s.data)

/-- C1 counterexample: for the content "a\n \nb" the write stores "a\n\nb"
(the whitespace-only middle line is normalized to empty), while the claim's
literal transformation leaves the line " " intact. -/
theorem C1_counterexample :
    lookupA (safe_write okWorld [STACK_DIR_NAME, "x.txt"] "a\n \nb"
        emptyGen).2.files [STACK_DIR_NAME, "x.txt"] = some "a\n\nb" ∧
    claimTransform "a\n \nb" = "a\n \nb" ∧
    ("a\n\nb" : String) ≠ "a\n \nb" := by decide

/-- C1 (amended): `safe_write` stores at the target path exactly the claimed
transformation applied after first normalizing whitespace-only lines to
empty lines, which is what `textwrap.dedent` does. -/
theorem C1_amended_safe_write (w : World) (p : FPath) (c : String) (s : Gen)
    (hw : w.writeFails p = none) (hp : p ≠ ACTIONS_LOG) :
    lookupA (safe_write w p c s).2.files p = some (amendedTransform c) := by
  rw [safe_write_ok w p c s hw]
  show lookupA (log_info w ("Wrote file: " ++ pathStr w p)
    { s with
      dirs := mkDirs p.dropLast s.dirs
      files := setA s.files p (transform c) }).files p = _
  rw [log_info_files_ne _ _ _ hp]
  show lookupA (setA s.files p (transform c)) p = _
  rw [lookupA_setA_self, transform_eq_amendedTransform]

theorem C1_amended_safe_write_witness :
    okWorld.writeFails ["x"] = none ∧ (["x"] : FPath) ≠ ACTIONS_LOG ∧
    lookupA (safe_write okWorld ["x"] "  hi\n" emptyGen).2.files ["x"] =
      some (amendedTransform "  hi\n") :=
  ⟨rfl, by decide,
    C1_amended_safe_write okWorld ["x"] "  hi\n" emptyGen rfl (by decide)⟩

/-- C3: `create_zip` records the archive `<root-name>.zip` as a sibling of
the stack root; its entries are exactly the files under the stack root, each
keyed by its path relative to `ROOT_DIR`, hence prefixed by the root's
name. -/
theorem C3_create_zip (w : World) (root : FPath) (s : Gen) (nm : String)
    (hr : root = [nm]) (h3 : w.zipFails = none)
    (hdc : ∀ e ∈ s.files, pfx root e.1 = true → e.1 ≠ root →
      e.1.dropLast ∈ walkDirs s root) :
    (create_zip w root s).1 = .ok [nm ++ ".zip"] ∧
    ([nm ++ ".zip"] : FPath).dropLast = root.dropLast ∧
    lookupA (create_zip w root s).2.zips [nm ++ ".zip"] =
      some (zipEntries s root) ∧
    (∀ p c', (p, c') ∈ zipEntries s root ↔
      ((p, c') ∈ s.files ∧ pfx root p = true ∧ p ≠ root)) := by
  subst hr
  refine ⟨?_, rfl, ?_, ?_⟩
  · rw [create_zip_ok w [nm] s h3]
    rfl
  · unfold create_zip
    rw [h3]
    show lookupA (setA s.zips [nm ++ ".zip"] (zipEntries s [nm]))
      [nm ++ ".zip"] = _
    exact lookupA_setA_self _ _ _
  · intro p c'
    constructor
    · intro he
      obtain ⟨hmem, hpfx, hlen⟩ :=
        zipEntries_mem_below (by simp) he
      refine ⟨hmem, hpfx, ?_⟩
      intro hc
      rw [hc] at hlen
      exact lt_irrefl _ hlen
    · rintro ⟨hmem, hpfx, hne⟩
      unfold zipEntries
      refine List.mem_flatMap.mpr ⟨p.dropLast, hdc (p, c') hmem hpfx hne, ?_⟩
      exact List.mem_filter.mpr ⟨hmem, by simp⟩

theorem C3_create_zip_witness :
    (([STACK_DIR_NAME] : FPath) = [STACK_DIR_NAME] ∧
     okWorld.zipFails = none ∧
     (∀ e ∈ emptyGen.files, pfx [STACK_DIR_NAME] e.1 = true →
       e.1 ≠ [STACK_DIR_NAME] →
       e.1.dropLast ∈ walkDirs emptyGen [STACK_DIR_NAME])) ∧
    ((create_zip okWorld [STACK_DIR_NAME] emptyGen).1 =
      .ok [STACK_DIR_NAME ++ ".zip"] ∧
    ([STACK_DIR_NAME ++ ".zip"] : FPath).dropLast =
      ([STACK_DIR_NAME] : FPath).dropLast ∧
    lookupA (create_zip okWorld [STACK_DIR_NAME] emptyGen).2.zips
      [STACK_DIR_NAME ++ ".zip"] =
      some (zipEntries emptyGen [STACK_DIR_NAME]) ∧
    (∀ p c', (p, c') ∈ zipEntries emptyGen [STACK_DIR_NAME] ↔
      ((p, c') ∈ emptyGen.files ∧ pfx [STACK_DIR_NAME] p = true ∧
        p ≠ [STACK_DIR_NAME]))) :=
  ⟨⟨rfl, rfl, by intro e he; cases he⟩,
    C3_create_zip okWorld [STACK_DIR_NAME] emptyGen STACK_DIR_NAME rfl rfl
      (by intro e he; cases he)⟩

/-- C10: every entry of the archive `create_zip` stores lies strictly below
the stack root, so the archive never contains the two log files, the
generator script itself, or the archive file being written. -/
theorem C10_zip_excludes (w : World) (s : Gen) (h3 : w.zipFails = none) :
    ∀ es, lookupA (create_zip w [STACK_DIR_NAME] s).2.zips ZIP_PATH = some es →
      ∀ e ∈ es, pfx [STACK_DIR_NAME] e.1 = true ∧ 2 ≤ e.1.length ∧
        e.1 ≠ ACTIONS_LOG ∧ e.1 ≠ ERRORS_LOG ∧ e.1 ≠ SCRIPT_PATH ∧
        e.1 ≠ ZIP_PATH := by
  intro es hes e he
  have hlk : lookupA (create_zip w [STACK_DIR_NAME] s).2.zips ZIP_PATH =
      some (zipEntries s [STACK_DIR_NAME]) := by
    unfold create_zip
    rw [h3]
    show lookupA (setA s.zips ZIP_PATH (zipEntries s [STACK_DIR_NAME]))
      ZIP_PATH = _
    exact lookupA_setA_self _ _ _
  rw [hlk] at hes
  have hesE : es = zipEntries s [STACK_DIR_NAME] := (Option.some.inj hes).symm
  subst hesE
  obtain ⟨-, hpfx, hlen⟩ := zipEntries_mem_below (by simp) he
  have hlen2 : 2 ≤ e.1.length := by
    simp only [List.length_singleton] at hlen
    omega
  refine ⟨hpfx, hlen2, ?_, ?_, ?_, ?_⟩ <;>
  · intro hc
    rw [hc] at hlen2
    exact absurd hlen2 (by decide)

theorem C10_zip_excludes_witness :
    okWorld.zipFails = none ∧
    (∀ es, lookupA (create_zip okWorld [STACK_DIR_NAME] emptyGen).2.zips
        ZIP_PATH = some es →
      ∀ e ∈ es, pfx [STACK_DIR_NAME] e.1 = true ∧ 2 ≤ e.1.length ∧
        e.1 ≠ ACTIONS_LOG ∧ e.1 ≠ ERRORS_LOG ∧ e.1 ≠ SCRIPT_PATH ∧
        e.1 ≠ ZIP_PATH) :=
  ⟨rfl, C10_zip_excludes okWorld emptyGen rfl⟩

/-- C7 counterexample: in a run whose first file write raises, the record
the top-level handler appends to the errors log embeds the traceback and
spans more than one line. -/
theorem C7_counterexample :
    ∃ r ∈ (main failW body0 emptyGen).2.errorRecs, ¬ oneLine r := by decide

/-- C7 (amended): every record `log_info` or `log_error` appends for a
single-line message occupies exactly one line in the documented format, and
in a fully successful fresh run every actions-log record is one line and the
errors log receives no record; the top-level handler's record, however,
embeds a traceback and spans multiple lines. -/
theorem C7_amended_records (w : World) (body : Nat → String)
    (h1 : ∀ p, w.writeFails p = none) (h2 : ∀ p, w.chmodFails p = none)
    (h3 : w.zipFails = none) (hroot : '\n' ∉ w.rootStr.data) :
    (∀ (td : DateTime) (m : String), '\n' ∉ m.data → oneLine (infoLine td m)) ∧
    (∀ (td : DateTime) (m : String), '\n' ∉ m.data →
      oneLine (errorLine w td m)) ∧
    (∀ r ∈ (main w body emptyGen).2.actionsRecs, oneLine r) ∧
    (main w body emptyGen).2.errorRecs = [] ∧
    (∃ r ∈ (main failW body0 emptyGen).2.errorRecs, ¬ oneLine r) := by
  obtain ⟨-, herr, -, -, -, -, -, -, t, ht, htP⟩ :=
    main_ok w body emptyGen h1 h2 h3
  refine ⟨fun td m hm => oneLine_infoLine td m hm,
    fun td m hm => oneLine_errorLine w td m hm hroot, ?_, herr, by decide⟩
  intro r hr
  rw [ht] at hr
  rcases List.mem_append.mp hr with hr | hr
  · cases hr
  obtain ⟨td, m', rfl, hmsg⟩ := htP r hr
  refine oneLine_infoLine td m' ?_
  rcases hmsg with hmsg | hmsg
  · exact headerMsg_no_newline hroot hmsg
  · exact tryInfoMsg_no_newline hroot hmsg

theorem C7_amended_records_witness :
    ((∀ p, okWorld.writeFails p = none) ∧ (∀ p, okWorld.chmodFails p = none) ∧
      okWorld.zipFails = none ∧ '\n' ∉ okWorld.rootStr.data) ∧
    ((∀ (td : DateTime) (m : String), '\n' ∉ m.data →
      oneLine (infoLine td m)) ∧
    (∀ (td : DateTime) (m : String), '\n' ∉ m.data →
      oneLine (errorLine okWorld td m)) ∧
    (∀ r ∈ (main okWorld body0 emptyGen).2.actionsRecs, oneLine r) ∧
    (main okWorld body0 emptyGen).2.errorRecs = [] ∧
    (∃ r ∈ (main failW body0 emptyGen).2.errorRecs, ¬ oneLine r)) :=
  ⟨⟨fun _ => rfl, fun _ => rfl, rfl, by decide⟩,
    C7_amended_records okWorld body0 (fun _ => rfl) (fun _ => rfl) rfl
      (by decide)⟩

/-- C2: running the generator twice in succession against the same output
location yields byte-identical contents for every generated file (the
written bytes depend on the template content alone) and for the archive,
while the two log files only grow across the runs, the actions log
strictly. -/
theorem C2_double_run (w : World) (body : Nat → String)
    (h1 : ∀ p, w.writeFails p = none) (h2 : ∀ p, w.chmodFails p = none)
    (h3 : w.zipFails = none) :
    (∀ q, q ≠ ACTIONS_LOG → q ≠ ERRORS_LOG →
      lookupA (main w body (main w body emptyGen).2).2.files q =
        lookupA (main w body emptyGen).2.files q) ∧
    lookupA (main w body (main w body emptyGen).2).2.zips ZIP_PATH =
      lookupA (main w body emptyGen).2.zips ZIP_PATH ∧
    (∃ t, t ≠ "" ∧
      getFileD (main w body (main w body emptyGen).2).2 ACTIONS_LOG =
        getFileD (main w body emptyGen).2 ACTIONS_LOG ++ t) ∧
    (∃ t, getFileD (main w body (main w body emptyGen).2).2 ERRORS_LOG =
      getFileD (main w body emptyGen).2 ERRORS_LOG ++ t) := by
  obtain ⟨-, -, -, o1files, o1dirs, ⟨sz1, z11, z12, -, -, z15⟩, -⟩ :=
    main_ok w body emptyGen h1 h2 h3
  obtain ⟨-, -, -, o2files, -, ⟨sz2, z21, z22, -, z24, -⟩, -⟩ :=
    main_ok w body (main w body emptyGen).2 h1 h2 h3
  refine ⟨?_, ?_, (main_grows w body (main w body emptyGen).2).1,
    (main_grows w body (main w body emptyGen).2).2⟩
  · intro q hqa hqe
    rw [o2files q hqa]
    unfold finalFile
    cases hlw : lastWrite (stackEntries body) q with
    | some c =>
      rw [o1files q hqa]
      unfold finalFile
      rw [hlw]
    | none => rfl
  · have hfe := stackEntries_present w body h1 h2 h3
    obtain ⟨a2, ha2⟩ := z24 hfe
    obtain ⟨a1, ha1⟩ := z15
    have hszf : sz2.files = setA sz1.files ACTIONS_LOG a2 := by
      rw [ha2, ha1, setA_absorb]
    have hD : sz1.dirs = (main w body emptyGen).2.dirs := z12.trans o1dirs.symm
    have hSmem : [STACK_DIR_NAME] ∈ (main w body emptyGen).2.dirs := by
      rw [o1dirs]
      exact ancestors_subset_mkDirs _ ancestors_root_logs.1
    have hLogsMem : ([STACK_DIR_NAME, "logs"] : FPath) ∈
        (main w body emptyGen).2.dirs := by
      rw [o1dirs]
      exact ancestors_subset_mkDirs _ ancestors_root_logs.2.1
    have hScrMem : ([STACK_DIR_NAME, "scripts"] : FPath) ∈
        (main w body emptyGen).2.dirs := by
      rw [o1dirs]
      refine mem_mkDirs_of_mem _ ?_
      exact mem_foldl_mkDirs_of_anc _ _
        (by rw [stackEntries_map_fst]; exact common_mem_stackPaths.1)
        common_mem_stackPaths.2
    have hh2 : (headerState w (main w body emptyGen).2).dirs =
        (main w body emptyGen).2.dirs := by
      rcases headerState_dirs w (main w body emptyGen).2 with hh | hh
      · exact hh
      · rw [hh]
        refine mkDirs_absorb ?_
        intro x hx
        rw [ancestors_root_logs.2.2] at hx
        rw [List.mem_singleton.mp hx]
        exact hSmem
    have hF : (stackEntries body).foldl (fun ds e => mkDirs e.1.dropLast ds)
        (main w body emptyGen).2.dirs = (main w body emptyGen).2.dirs := by
      refine foldl_mkDirs_absorb _ _ ?_
      intro e he x hx
      have hp : e.1 ∈ stackPathsList := by
        rw [← stackEntries_map_fst body]
        exact List.mem_map_of_mem _ he
      rcases stackPaths_ancestors e.1 hp x hx with rfl | rfl
      · exact hSmem
      · exact hScrMem
    have hLabs : mkDirs ([STACK_DIR_NAME] ++ ["logs"])
        (main w body emptyGen).2.dirs = (main w body emptyGen).2.dirs := by
      refine mkDirs_absorb ?_
      intro x hx
      rcases ancestors_logs_char x hx with rfl | rfl
      · exact hSmem
      · exact hLogsMem
    have hdirs : sz2.dirs = sz1.dirs := by
      rw [z22, hh2, hF, hLabs]
      exact hD.symm
    have hE : zipEntries sz2 [STACK_DIR_NAME] = zipEntries sz1 [STACK_DIR_NAME] :=
      zipEntries_congr sz1 sz2 [STACK_DIR_NAME] (by simp) hdirs a2 hszf
    rw [z21, z11, hE, setA_absorb]

/-- C5: a fresh successful run creates a stack root with exactly 1 top-level
script, 8 scripts under `scripts`, one manifest, 3 documentation files, and
an empty `logs` directory; the 9 scripts carry the owner, group and other
execute bits; and the archive is recorded as a sibling of the stack root. -/
theorem C5_fresh_run (w : World) (body : Nat → String)
    (h1 : ∀ p, w.writeFails p = none) (h2 : ∀ p, w.chmodFails p = none)
    (h3 : w.zipFails = none) :
    (main w body emptyGen).1 = .ok () ∧
    (∀ q, q ≠ ACTIONS_LOG →
      (lookupA (main w body emptyGen).2.files q ≠ none ↔
        q ∈ stackPathsList)) ∧
    stackPathsList.filter
      (fun q => decide (q.dropLast = [STACK_DIR_NAME]) &&
        endsWithSh (q.getLastD "")) = [[STACK_DIR_NAME, "install.sh"]] ∧
    (stackPathsList.filter
      (fun q => decide (q.dropLast = [STACK_DIR_NAME, "scripts"]))).length = 8 ∧
    (∀ q ∈ stackPathsList.filter
      (fun q => decide (q.dropLast = [STACK_DIR_NAME, "scripts"])),
      endsWithSh (q.getLastD "") = true) ∧
    ([STACK_DIR_NAME, "docker-compose.yml"] : FPath) ∈ stackPathsList ∧
    (stackPathsList.filter
      (fun q => decide (q.dropLast = [STACK_DIR_NAME]) &&
        !(endsWithSh (q.getLastD "")) &&
        decide (q ≠ [STACK_DIR_NAME, "docker-compose.yml"]))).length = 3 ∧
    ([STACK_DIR_NAME] : FPath) ∈ (main w body emptyGen).2.dirs ∧
    ([STACK_DIR_NAME, "logs"] : FPath) ∈ (main w body emptyGen).2.dirs ∧
    (∀ q : FPath, q.dropLast = [STACK_DIR_NAME, "logs"] →
      lookupA (main w body emptyGen).2.files q = none) ∧
    (∀ q, q ∈ stackPathsList →
      (q.dropLast = [STACK_DIR_NAME, "scripts"] ∨
        q = [STACK_DIR_NAME] ++ ["install.sh"]) →
      ∃ m0, lookupA (main w body emptyGen).2.modes q = some (m0 ||| execBits) ∧
        (m0 ||| execBits).testBit 0 = true ∧
        (m0 ||| execBits).testBit 3 = true ∧
        (m0 ||| execBits).testBit 6 = true) ∧
    lookupA (main w body emptyGen).2.zips ZIP_PATH ≠ none ∧
    ZIP_PATH.dropLast = ([STACK_DIR_NAME] : FPath).dropLast := by
  obtain ⟨o1res, -, -, o1files, o1dirs, ⟨sz1, z11, -⟩, o1exec, -, -⟩ :=
    main_ok w body emptyGen h1 h2 h3
  refine ⟨o1res, ?_, by decide, by decide, by decide, by decide, by decide,
    ?_, ?_, ?_, ?_, ?_, by decide⟩
  · intro q hq
    rw [o1files q hq]
    unfold finalFile
    cases hlw : lastWrite (stackEntries body) q with
    | some c =>
      constructor
      · intro _
        have hmem := lastWrite_some_mem hlw
        rwa [stackEntries_map_fst] at hmem
      · intro _
        simp
    | none =>
      show lookupA emptyGen.files q ≠ none ↔ _
      constructor
      · intro hne
        exact absurd rfl hne
      · intro hmem
        exact absurd hlw (lastWrite_is_some _ _
          (by rw [stackEntries_map_fst]; exact hmem))
  · rw [o1dirs]
    exact ancestors_subset_mkDirs _ ancestors_root_logs.1
  · rw [o1dirs]
    exact ancestors_subset_mkDirs _ ancestors_root_logs.2.1
  · intro q hpar
    have hqa : q ≠ ACTIONS_LOG := by
      rintro rfl
      exact absurd hpar (by decide)
    rw [o1files q hqa]
    unfold finalFile
    cases hlw : lastWrite (stackEntries body) q with
    | some c =>
      have hmem := lastWrite_some_mem hlw
      rw [stackEntries_map_fst] at hmem
      exact absurd hpar (stackPaths_not_logsdir q hmem)
    | none => rfl
  · intro q hqmem hcase
    have hcond : (finalFile body emptyGen q ≠ none ∧ isScriptSh q = true) ∨
        q = [STACK_DIR_NAME] ++ ["install.sh"] := by
      rcases hcase with hpar | rfl
      · refine Or.inl ⟨?_, stackPaths_scripts_sh q hqmem hpar⟩
        have hlw : lastWrite (stackEntries body) q ≠ none :=
          lastWrite_is_some _ _ (by rw [stackEntries_map_fst]; exact hqmem)
        unfold finalFile
        cases hlw2 : lastWrite (stackEntries body) q with
        | some c => simp
        | none => exact absurd hlw2 hlw
      · exact Or.inr rfl
    obtain ⟨m0, hm0⟩ := o1exec q hcond
    exact ⟨m0, hm0, (execBits_testBit m0).1, (execBits_testBit m0).2.1,
      (execBits_testBit m0).2.2.1⟩
  · rw [z11, lookupA_setA_self]
    simp

theorem C5_fresh_run_witness :
    ((∀ p, okWorld.writeFails p = none) ∧ (∀ p, okWorld.chmodFails p = none) ∧
      okWorld.zipFails = none) ∧
    ((main okWorld body0 emptyGen).1 = .ok () ∧
    (∀ q, q ≠ ACTIONS_LOG →
      (lookupA (main okWorld body0 emptyGen).2.files q ≠ none ↔
        q ∈ stackPathsList)) ∧
    stackPathsList.filter
      (fun q => decide (q.dropLast = [STACK_DIR_NAME]) &&
        endsWithSh (q.getLastD "")) = [[STACK_DIR_NAME, "install.sh"]] ∧
    (stackPathsList.filter
      (fun q => decide (q.dropLast = [STACK_DIR_NAME, "scripts"]))).length = 8 ∧
    (∀ q ∈ stackPathsList.filter
      (fun q => decide (q.dropLast = [STACK_DIR_NAME, "scripts"])),
      endsWithSh (q.getLastD "") = true) ∧
    ([STACK_DIR_NAME, "docker-compose.yml"] : FPath) ∈ stackPathsList ∧
    (stackPathsList.filter
      (fun q => decide (q.dropLast = [STACK_DIR_NAME]) &&
        !(endsWithSh (q.getLastD "")) &&
        decide (q ≠ [STACK_DIR_NAME, "docker-compose.yml"]))).length = 3 ∧
    ([STACK_DIR_NAME] : FPath) ∈ (main okWorld body0 emptyGen).2.dirs ∧
    ([STACK_DIR_NAME, "logs"] : FPath) ∈ (main okWorld body0 emptyGen).2.dirs ∧
    (∀ q : FPath, q.dropLast = [STACK_DIR_NAME, "logs"] →
      lookupA (main okWorld body0 emptyGen).2.files q = none) ∧
    (∀ q, q ∈ stackPathsList →
      (q.dropLast = [STACK_DIR_NAME, "scripts"] ∨
        q = [STACK_DIR_NAME] ++ ["install.sh"]) →
      ∃ m0, lookupA (main okWorld body0 emptyGen).2.modes q =
          some (m0 ||| execBits) ∧
        (m0 ||| execBits).testBit 0 = true ∧
        (m0 ||| execBits).testBit 3 = true ∧
        (m0 ||| execBits).testBit 6 = true) ∧
    lookupA (main okWorld body0 emptyGen).2.zips ZIP_PATH ≠ none ∧
    ZIP_PATH.dropLast = ([STACK_DIR_NAME] : FPath).dropLast) :=
  ⟨⟨fun _ => rfl, fun _ => rfl, rfl⟩,
    C5_fresh_run okWorld body0 (fun _ => rfl) (fun _ => rfl) rfl⟩

theorem C2_double_run_witness :
    ((∀ p, okWorld.writeFails p = none) ∧ (∀ p, okWorld.chmodFails p = none) ∧
      okWorld.zipFails = none) ∧
    ((∀ q, q ≠ ACTIONS_LOG → q ≠ ERRORS_LOG →
      lookupA (main okWorld body0 (main okWorld body0 emptyGen).2).2.files q =
        lookupA (main okWorld body0 emptyGen).2.files q) ∧
    lookupA (main okWorld body0 (main okWorld body0 emptyGen).2).2.zips ZIP_PATH =
      lookupA (main okWorld body0 emptyGen).2.zips ZIP_PATH ∧
    (∃ t, t ≠ "" ∧
      getFileD (main okWorld body0 (main okWorld body0 emptyGen).2).2 ACTIONS_LOG =
        getFileD (main okWorld body0 emptyGen).2 ACTIONS_LOG ++ t) ∧
    (∃ t, getFileD (main okWorld body0 (main okWorld body0 emptyGen).2).2 ERRORS_LOG =
      getFileD (main okWorld body0 emptyGen).2 ERRORS_LOG ++ t)) :=
  ⟨⟨fun _ => rfl, fun _ => rfl, rfl⟩,
    C2_double_run okWorld body0 (fun _ => rfl) (fun _ => rfl) rfl⟩

end SetupStack
